import Mathlib

/-!
# vini-code-final: temporary record store and stream selection

A shallow embedding of `src/storage.js`, of the stream selection of
`src/providers.js`, of the backup pipeline of `src/backup.js` and of the two
link functions of `src/server.js`, with the properties stated about them.

Conventions of the embedding:

* time is a natural number of milliseconds; the host event loop is explicit
  (`Store.now`, `Store.timers`), and timer callbacks run only in `tick`, never
  in the middle of a call to one of the exported functions;
* JavaScript numbers that matter here (`ttlMs`, timer ids, scores) are
  integers; `NaN`, infinities and fractions are outside the model;
* a `throw` is `Except.error`, the value `null` is `none` or `JsVal.null`;
* the network is a function of the URL, and an async function returns its
  outcome together with the list of the URLs it fetched.
-/

namespace Vini

/-! ## `Map` of the host, as an association list keyed by strings -/

/-- JS `Map.prototype.get`: the value held for `k`, `none` for `undefined`. -/
def mapGet {β : Type} : List (String × β) → String → Option β
  | [], _ => none
  | (k', v) :: rest, k => if k' = k then some v else mapGet rest k

/-- JS `Map.prototype.has`. -/
def mapHas {β : Type} (m : List (String × β)) (k : String) : Bool :=
  (mapGet m k).isSome

/-- JS `Map.prototype.set`: an existing key keeps its position and gets the new
value, a new key is appended. -/
def mapSet {β : Type} : List (String × β) → String → β → List (String × β)
  | [], k, v => [(k, v)]
  | (k', v') :: rest, k, v =>
      if k' = k then (k, v) :: rest else (k', v') :: mapSet rest k v

/-- JS `Map.prototype.delete`. -/
def mapDelete {β : Type} (m : List (String × β)) (k : String) : List (String × β) :=
  m.filter (fun p => decide (p.1 ≠ k))

/-! ## storage.js -/

/-- Value kept in `sessions` for a token: `{ record: data, timeoutId }`. The
`timeoutId` is the identity of the host timer object. -/
structure Entry (ρ : Type) where
  record : ρ
  timeoutId : Nat

/-- Pending host timer made by `setTimeout(() => sessions.delete(token), ttlMs)`:
its identity, the clock value at which it becomes due, and the token captured
by its callback. -/
structure Timer where
  id : Nat
  due : Nat
  token : String
deriving DecidableEq

/-- Module state of storage.js together with the part of the host it uses:
the clock, the timers that are scheduled and neither cancelled nor run, the
next fresh timer identity, and a log of the timers whose callback has run
(most recent first; the log is only observed, no function reads it). -/
structure Store (ρ : Type) where
  now : Nat
  sessions : List (String × Entry ρ)
  timers : List Timer
  nextId : Nat
  fired : List Nat

/-- State at module load: `const sessions = new Map()`, no timers. -/
def Store.empty {ρ : Type} : Store ρ :=
  { now := 0, sessions := [], timers := [], nextId := 0, fired := [] }

/-- Largest delay a Node.js timer accepts (`TIMEOUT_MAX`, 2^31 - 1). -/
def TIMEOUT_MAX : Int := 2147483647

/-- Delay that Node.js `setTimeout(cb, ttlMs)` really uses: a delay below 1 or
above `TIMEOUT_MAX` is set to 1 (in lib/internal/timers.js,
`if (!(after >= 1 && after <= TIMEOUT_MAX)) after = 1`). -/
def timerDelay (ttlMs : Int) : Nat :=
  if 1 ≤ ttlMs ∧ ttlMs ≤ TIMEOUT_MAX then ttlMs.toNat else 1

/-- Host `setTimeout(() => sessions.delete(token), ttlMs)`: schedules a fresh
timer and returns its identity. -/
def setTimeout {ρ : Type} (s : Store ρ) (token : String) (ttlMs : Int) : Store ρ × Nat :=
  ({ s with
      timers := s.timers ++ [{ id := s.nextId, due := s.now + timerDelay ttlMs, token := token }]
      nextId := s.nextId + 1 },
   s.nextId)

/-- Host `clearTimeout(timeoutId)`: the timer, if still pending, is dropped;
clearing a timer that already ran does nothing. -/
def clearTimeout {ρ : Type} (s : Store ρ) (timeoutId : Nat) : Store ρ :=
  { s with timers := s.timers.filter (fun t => decide (t.id ≠ timeoutId)) }

/-- `addTemporaryRecord(token, data, ttlMs)`. -/
def addTemporaryRecord {ρ : Type} (s : Store ρ) (token : String) (data : ρ) (ttlMs : Int) :
    Store ρ :=
  let s1 :=
    match mapGet s.sessions token with
    | some entry => clearTimeout s entry.timeoutId
    | none => s
  let (s2, timeoutId) := setTimeout s1 token ttlMs
  { s2 with sessions := mapSet s2.sessions token { record := data, timeoutId := timeoutId } }

/-- `getTemporaryRecord(token)`: `none` stands for `null`. The store is not
changed by a read. -/
def getTemporaryRecord {ρ : Type} (s : Store ρ) (token : String) : Option ρ :=
  match mapGet s.sessions token with
  | none => none
  | some entry => some entry.record

/-- `removeTemporaryRecord(token)`. -/
def removeTemporaryRecord {ρ : Type} (s : Store ρ) (token : String) : Store ρ :=
  match mapGet s.sessions token with
  | some entry =>
      let s1 := clearTimeout s entry.timeoutId
      { s1 with sessions := mapDelete s1.sessions token }
  | none => s

/-- One timer running: the host drops it from the pending timers and calls its
callback `() => sessions.delete(token)`. -/
def fireTimer {ρ : Type} (s : Store ρ) (t : Timer) : Store ρ :=
  { s with
      timers := s.timers.filter (fun u => decide (u.id ≠ t.id))
      sessions := mapDelete s.sessions t.token
      fired := t.id :: s.fired }

/-- Timers of `s` that are due once the clock reads `now`, in the order the
host runs them: by due time, timers with the same due time in creation order. -/
def dueTimers (timers : List Timer) (now : Nat) : List Timer :=
  (timers.filter (fun t => decide (t.due ≤ now))).insertionSort (fun a b => a.due ≤ b.due)

/-- The clock advances by `ms` milliseconds and the event loop runs every
timer that is due by then. -/
def tick {ρ : Type} (s : Store ρ) (ms : Nat) : Store ρ :=
  (dueTimers s.timers (s.now + ms)).foldl fireTimer { s with now := s.now + ms }

/-- What can happen to the store: a call of one of its three functions, or
time passing. -/
inductive Event (ρ : Type) where
  | add (token : String) (data : ρ) (ttlMs : Int)
  | get (token : String)
  | remove (token : String)
  | tick (ms : Nat)

/-- Effect of one event on the store. -/
def step {ρ : Type} (s : Store ρ) : Event ρ → Store ρ
  | .add token data ttlMs => addTemporaryRecord s token data ttlMs
  | .get _ => s
  | .remove token => removeTemporaryRecord s token
  | .tick ms => tick s ms

/-- Store reached from `s` by the events of `tr`, oldest first. -/
def runFrom {ρ : Type} (s : Store ρ) (tr : List (Event ρ)) : Store ρ :=
  tr.foldl step s

/-- Store reached from module load by the events of `tr`. -/
def run {ρ : Type} (tr : List (Event ρ)) : Store ρ :=
  runFrom Store.empty tr

/-! ### The history of a token, read off the events -/

/-- What the events say about the most recent `addTemporaryRecord` of a token:
the record and TTL it was given, the time elapsed since, and whether a
`removeTemporaryRecord` of the token came after it. -/
structure LastAdd (ρ : Type) where
  record : ρ
  ttlMs : Int
  elapsed : Nat
  removed : Bool

/-- Most recent add of `token` in a history given most recent event first. -/
def lastAddRev {ρ : Type} (token : String) : List (Event ρ) → Option (LastAdd ρ)
  | [] => none
  | .add t data ttlMs :: rest =>
      if t = token then some { record := data, ttlMs := ttlMs, elapsed := 0, removed := false }
      else lastAddRev token rest
  | .get _ :: rest => lastAddRev token rest
  | .remove t :: rest =>
      (lastAddRev token rest).map fun la => { la with removed := la.removed || decide (t = token) }
  | .tick ms :: rest =>
      (lastAddRev token rest).map fun la => { la with elapsed := la.elapsed + ms }

/-- Most recent add of `token` among the events of `tr`, oldest first. -/
def lastAdd {ρ : Type} (tr : List (Event ρ)) (token : String) : Option (LastAdd ρ) :=
  lastAddRev token tr.reverse

/-- Record that the retrievability rule assigns to `token` after the events
`tr`: the record of the most recent add, provided no remove of the token
followed it and less than its `ttlMs` has elapsed since; otherwise none. -/
def retrievable {ρ : Type} (tr : List (Event ρ)) (token : String) : Option ρ :=
  match lastAdd tr token with
  | none => none
  | some la => if la.removed = false ∧ (la.elapsed : Int) < la.ttlMs then some la.record else none

/-- Every add of the history asks for a TTL the host timer honours as given. -/
def ttlsInRange {ρ : Type} (tr : List (Event ρ)) : Bool :=
  tr.all fun e =>
    match e with
    | .add _ _ ttlMs => decide (1 ≤ ttlMs ∧ ttlMs ≤ TIMEOUT_MAX)
    | _ => true

/-- Total time that passes during `tr`. -/
def elapsedOf {ρ : Type} : List (Event ρ) → Nat
  | [] => 0
  | .tick ms :: rest => ms + elapsedOf rest
  | _ :: rest => elapsedOf rest

/-- The events of `tr` neither add nor remove `token`. -/
def untouched {ρ : Type} (token : String) : List (Event ρ) → Bool
  | [] => true
  | .add t _ _ :: rest => decide (t ≠ token) && untouched token rest
  | .remove t :: rest => decide (t ≠ token) && untouched token rest
  | _ :: rest => untouched token rest

/-! ## JavaScript values, as far as providers.js looks at them -/

/-- JSON-like JavaScript value. An object is its list of own enumerable
properties. -/
inductive JsVal where
  | undefined
  | null
  | bool (b : Bool)
  | num (n : Int)
  | str (s : String)
  | arr (items : List JsVal)
  | obj (fields : List (String × JsVal))

/-- Error thrown by the host (`TypeError`) or by the program (`new Error(msg)`,
also standing for a rejected `fetch` or `resp.json()`). -/
inductive JsError where
  | typeError (msg : String)
  | error (msg : String)

/-- JS truthiness (`!x` is its negation). -/
def JsVal.truthy : JsVal → Bool
  | .undefined => false
  | .null => false
  | .bool b => b
  | .num n => decide (n ≠ 0)
  | .str s => decide (s ≠ "")
  | .arr _ => true
  | .obj _ => true

/-- `Array.isArray(x)`. -/
def JsVal.isArray : JsVal → Bool
  | .arr _ => true
  | _ => false

/-- The value is `null` or `undefined`. -/
def JsVal.isNullish : JsVal → Bool
  | .undefined => true
  | .null => true
  | _ => false

/-- `x === "s"` for a string literal `s`. -/
def JsVal.isStr : JsVal → String → Bool
  | .str t, s => decide (t = s)
  | _, _ => false

/-- Member access `x.k`, for the property names read by providers.js and
backup.js (`stream`, `streams`, `sourceId`, `embedId`, `type`, `qualities`,
`imdb_id`, `title`, `name`, `infoHash`, `m3u8Link`), none of which exists on a
built-in prototype of a JSON value: a `TypeError` on `null` and `undefined`, the own property
of an object, `undefined` everywhere else. -/
def JsVal.getProp : JsVal → String → Except JsError JsVal
  | .undefined, k => .error (.typeError ("Cannot read properties of undefined (reading " ++ k ++ ")"))
  | .null, k => .error (.typeError ("Cannot read properties of null (reading " ++ k ++ ")"))
  | .obj fields, k =>
      match mapGet fields k with
      | some v => .ok v
      | none => .ok .undefined
  | _, _ => .ok .undefined

/-- JS `a || b`. -/
def jsOr (a b : JsVal) : JsVal :=
  if a.truthy then a else b

/-- Length of a string in UTF-16 code units, the `length` of a JS string. -/
def utf16Length (s : String) : Nat :=
  (s.data.map fun c => if c.val.toNat < 65536 then 1 else 2).sum

/-- `Object.keys(x)`: a `TypeError` on `null` and `undefined`, the property
names of an object, the indices of an array or of a string, nothing for a
number or a boolean. -/
def objectKeys : JsVal → Except JsError (List String)
  | .undefined => .error (.typeError "Cannot convert undefined or null to object")
  | .null => .error (.typeError "Cannot convert undefined or null to object")
  | .obj fields => .ok (fields.map Prod.fst)
  | .arr items => .ok ((List.range items.length).map toString)
  | .str s => .ok ((List.range (utf16Length s)).map toString)
  | _ => .ok []

/-! ## providers.js -/

/-- `unifyProviderOutputs(providerOutputs)`. The array it returns is given by
its elements. -/
def unifyProviderOutputs (providerOutputs : JsVal) : Except JsError (List JsVal) :=
  if !providerOutputs.truthy then
    .ok []
  else
    match providerOutputs with
    | .arr items => .ok items
    | _ => do
      let stream ← providerOutputs.getProp "stream"
      if stream.truthy then
        let sourceId ← providerOutputs.getProp "sourceId"
        let embedId ← providerOutputs.getProp "embedId"
        let stream' ← providerOutputs.getProp "stream"
        .ok [.obj [("id", jsOr sourceId (.str "unknown")),
                   ("name", jsOr embedId (.str "Unnamed")),
                   ("streams", .arr [stream'])]]
      else
        let streams ← providerOutputs.getProp "streams"
        if streams.truthy then .ok [providerOutputs] else .ok []

/-- `resolutionRanking[key] || 0` in `getHighestFileResolution`. A key that
names a property of `Object.prototype` yields a function there, which the
comparison `score > best` turns into `NaN`, so that it never replaces `best`:
the same outcome as the score 0 it gets here. -/
def resolutionScore (key : String) : Nat :=
  if key = "4k" then 4000
  else if key = "1080" then 1080
  else if key = "720" then 720
  else if key = "480" then 480
  else if key = "360" then 360
  else 0

/-- The loop of `getHighestFileResolution`: `if (score > best) best = score`. -/
def highestLoop : List String → Nat → Nat
  | [], best => best
  | key :: rest, best =>
      let score := resolutionScore key
      if score > best then highestLoop rest score else highestLoop rest best

/-- `getHighestFileResolution(qualitiesMap = {})`: the default applies to
`undefined` only. -/
def getHighestFileResolution (qualitiesMap : JsVal) : Except JsError Nat :=
  let qualitiesMap :=
    match qualitiesMap with
    | .undefined => JsVal.obj []
    | v => v
  do
    let keys ← objectKeys qualitiesMap
    .ok (highestLoop keys 0)

/-- Body of the inner loop of `pickBestStream` for one stream; the state is
`(chosenStream, chosenScore)`. -/
def considerStream (st : JsVal × Nat) (stream : JsVal) : Except JsError (JsVal × Nat) := do
  let type ← stream.getProp "type"
  if type.isStr "hls" then
    let score := 9999
    if score > st.2 then .ok (stream, score) else .ok st
  else if type.isStr "file" then
    let qualities ← stream.getProp "qualities"
    let resolutionScore ← getHighestFileResolution qualities
    if resolutionScore > st.2 then .ok (stream, resolutionScore) else .ok st
  else
    .ok st

/-- Inner loop of `pickBestStream`: `for (const stream of provider.streams)`. -/
def scanStreams : List JsVal → JsVal × Nat → Except JsError (JsVal × Nat)
  | [], st => .ok st
  | stream :: rest, st => do
      let st' ← considerStream st stream
      scanStreams rest st'

/-- Outer loop of `pickBestStream`: `for (const provider of providerOutputs)`. -/
def scanProviders : List JsVal → JsVal × Nat → Except JsError (JsVal × Nat)
  | [], st => .ok st
  | provider :: rest, st => do
      let streams ← provider.getProp "streams"
      if !streams.truthy || !streams.isArray then
        scanProviders rest st
      else
        match streams with
        | .arr items => do
            let st' ← scanStreams items st
            scanProviders rest st'
        | _ => scanProviders rest st

/-- `pickBestStream(providerOutputs)`; `JsVal.null` is the `null` it returns
when nothing was chosen. -/
def pickBestStream (providerOutputs : List JsVal) : Except JsError JsVal := do
  let st ← scanProviders providerOutputs (.null, 0)
  .ok st.1

/-! ### Vocabulary of the statements about `pickBestStream` -/

/-- The streams that `pickBestStream` looks at, in its iteration order:
provider by provider, the elements of each array-valued `streams`. -/
def allStreams : List JsVal → List JsVal
  | [] => []
  | provider :: rest =>
      match provider.getProp "streams" with
      | .ok (.arr items) => items ++ allStreams rest
      | _ => allStreams rest

/-- The stream has type `ty`: `stream.type === ty`. -/
def hasType (stream : JsVal) (ty : String) : Bool :=
  match stream.getProp "type" with
  | .ok v => v.isStr ty
  | .error _ => false

/-- Keys of the quality map of a stream: `Object.keys(stream.qualities)`, none
when `qualities` is missing. -/
def qualityKeys (stream : JsVal) : List String :=
  match stream.getProp "qualities" with
  | .ok .undefined => []
  | .ok v =>
      match objectKeys v with
      | .ok keys => keys
      | .error _ => []
  | .error _ => []

/-- Score of a file-based stream as the rule words it: the largest value among
its quality-map keys under the table 4k=4000, 1080=1080, 720=720, 480=480,
360=360, unknown=0, any other key=0. -/
def fileScore (stream : JsVal) : Nat :=
  ((qualityKeys stream).map resolutionScore).foldr max 0

/-- Score that `pickBestStream` compares for a stream: 9999 for type "hls",
the file score for type "file", and nothing to compare (0) otherwise. -/
def streamScore (stream : JsVal) : Nat :=
  if hasType stream "hls" then 9999
  else if hasType stream "file" then fileScore stream
  else 0

/-- Largest of `m` and the scores of the elements of a list. -/
def maxFrom {α ι : Type} [LinearOrder ι] (sc : α → ι) : List α → ι → ι
  | [], m => m
  | a :: rest, m => maxFrom sc rest (max m (sc a))

/-- One round of "keep the best so far": the element replaces the kept one
only when its score is strictly greater than the kept score. -/
def keepBest {α γ ι : Type} [LinearOrder ι] (inj : α → γ) (sc : α → ι) (st : γ × ι) (a : α) :
    γ × ι :=
  if st.2 < sc a then (inj a, sc a) else st

/-- A stream is an object-like value whose quality map, when it is file-based,
is not `null`: reading it throws nothing. -/
def wellFormedStream (stream : JsVal) : Bool :=
  !stream.isNullish &&
    (if hasType stream "file" then
      match stream.getProp "qualities" with
      | .ok .null => false
      | _ => true
     else true)

/-- A normalized list of provider results: no provider is `null` or
`undefined`, and every element of an array-valued `streams` is a well-formed
stream. -/
def wellFormed (providerOutputs : List JsVal) : Bool :=
  providerOutputs.all (fun p => !p.isNullish) && (allStreams providerOutputs).all wellFormedStream

/-- What `unifyProviderOutputs` returns, case by case as the rule words it:
the array itself; for a non-array object with a truthy `stream`, the one
provider `{id: x.sourceId || "unknown", name: x.embedId || "Unnamed",
streams: [x.stream]}`; for a non-array object without a truthy `stream` but
with a truthy `streams`, the object alone; nothing in every other case. -/
def unifySpec : JsVal → List JsVal
  | .arr items => items
  | .obj fields =>
      let field := fun k => (mapGet fields k).getD JsVal.undefined
      if (field "stream").truthy then
        [.obj [("id", jsOr (field "sourceId") (.str "unknown")),
               ("name", jsOr (field "embedId") (.str "Unnamed")),
               ("streams", .arr [field "stream"])]]
      else if (field "streams").truthy then [.obj fields]
      else []
  | _ => []

/-- The quality labels that the ranking table gives a positive score. -/
def recognizedLabels : List String := ["4k", "1080", "720", "480", "360"]

/-- One provider whose only stream is file-based and offers the quality
`unknown` alone. -/
def unknownQualityOnly : List JsVal :=
  [.obj [("id", .str "vidsrc"), ("name", .str "VidSrc"),
         ("streams", .arr [.obj [("type", .str "file"),
                                 ("qualities", .obj [("unknown",
                                    .obj [("type", .str "mp4"), ("url", .str "https://cdn/v.mp4")])]),
                                 ("captions", .arr [])]])]]

/-- Two providers: the first offers a file-based stream in 4k and 720, the
second a file-based stream in 1080 followed by two streaming manifests. -/
def fileThenHls : List JsVal :=
  [.obj [("id", .str "a"), ("name", .str "A"),
         ("streams", .arr [.obj [("type", .str "file"),
            ("qualities", .obj [("4k", .obj [("url", .str "u4k")]),
                                ("720", .obj [("url", .str "u720")])])]])],
   .obj [("id", .str "b"), ("name", .str "B"),
         ("streams", .arr [
            .obj [("type", .str "file"), ("qualities", .obj [("1080", .obj [("url", .str "u1080")])])],
            .obj [("type", .str "hls"), ("playlist", .str "first.m3u8"), ("captions", .arr [])],
            .obj [("type", .str "hls"), ("playlist", .str "second.m3u8"), ("captions", .arr [])]])]]

/-- Three file-based streams over two providers, offering 480, then 4k and
360, then 4k again. -/
def filesOnly : List JsVal :=
  [.obj [("id", .str "a"), ("name", .str "A"),
         ("streams", .arr [
            .obj [("type", .str "file"), ("qualities", .obj [("480", .obj [("url", .str "sd")])])],
            .obj [("type", .str "file"),
                  ("qualities", .obj [("360", .obj [("url", .str "low")]),
                                      ("4k", .obj [("url", .str "uhd-first")])])]])],
   .obj [("id", .str "b"), ("name", .str "B"),
         ("streams", .arr [
            .obj [("type", .str "file"), ("qualities", .obj [("4k", .obj [("url", .str "uhd-second")])])]])]]

/-! ## backup.js: choice of the torrent candidate -/

/-- One element of the `streams` array of the indexer, as far as
`pickBestTorrentStream` and its caller read it: `title` and `name` are strings
or missing, `infoHash` identifies the content. -/
structure TorrentStream where
  title : Option String
  name : Option String
  infoHash : String
deriving DecidableEq

/-- `const resolutionRanking = ["2160p", "4k", "1080p", "720p", "480p", "360p"]`. -/
def resolutionRanking : List String := ["2160p", "4k", "1080p", "720p", "480p", "360p"]

/-- Substring test on characters, `String.prototype.includes`. -/
def includesChars : List Char → List Char → Bool
  | [], needle => needle.isEmpty
  | c :: cs, needle => needle.isPrefixOf (c :: cs) || includesChars cs needle

/-- JS `hay.includes(needle)`. -/
def jsIncludes (hay needle : String) : Bool :=
  includesChars hay.data needle.data

/-- Lower-casing of the ASCII letters of a string. -/
def asciiLower (s : String) : String :=
  String.mk (s.data.map Char.toLower)

/-- The test of the inner loop,
`s.title?.toLowerCase().includes(res) || s.name?.toLowerCase().includes(res)`.
`toLowerCase` is `String.prototype.toLowerCase` of the host, taken as a
parameter. -/
def matchesRes (toLowerCase : String → String) (s : TorrentStream) (res : String) : Bool :=
  (match s.title with
   | some t => jsIncludes (toLowerCase t) res
   | none => false) ||
  (match s.name with
   | some n => jsIncludes (toLowerCase n) res
   | none => false)

/-- Inner loop of `pickBestTorrentStream` from index `i` on, over the tokens
not yet tried: `rank` stays `-1` unless a token matches, and then is
`resolutionRanking.length - i`. -/
def rankLoop (toLowerCase : String → String) (s : TorrentStream) : List String → Nat → Int
  | [], _ => -1
  | res :: rest, i =>
      if matchesRes toLowerCase s res then (resolutionRanking.length : Int) - (i : Int)
      else rankLoop toLowerCase s rest (i + 1)

/-- The `rank` that the loop body of `pickBestTorrentStream` computes for `s`. -/
def torrentRank (toLowerCase : String → String) (s : TorrentStream) : Int :=
  rankLoop toLowerCase s resolutionRanking 0

/-- Outer loop of `pickBestTorrentStream`; the state is `(chosen, chosenRank)`. -/
def torrentLoop (toLowerCase : String → String) :
    List TorrentStream → Option TorrentStream × Int → Option TorrentStream × Int
  | [], st => st
  | s :: rest, st =>
      let rank := torrentRank toLowerCase s
      if rank > st.2 then torrentLoop toLowerCase rest (some s, rank)
      else torrentLoop toLowerCase rest st

/-- `pickBestTorrentStream(streams)` on an array; `none` is `null`. -/
def pickBestTorrentStream (toLowerCase : String → String) (streams : List TorrentStream) :
    Option TorrentStream :=
  if streams.length = 0 then none
  else (torrentLoop toLowerCase streams (none, -9999)).1

/-- Position of the first element of a list that satisfies `p`. -/
def firstMatch (p : String → Bool) : List String → Option Nat
  | [] => none
  | r :: rest => if p r then some 0 else (firstMatch p rest).map (· + 1)

/-- Priority of a candidate as the rule words it: the position, in
`resolutionRanking`, of the earliest token that occurs in its lower-cased
title or name; none when no token occurs. -/
def priority (toLowerCase : String → String) (s : TorrentStream) : Option Nat :=
  firstMatch (matchesRes toLowerCase s) resolutionRanking

/-- Four candidates: no token, 720p in the name, 1080p in the title, 1080p
again. -/
def sampleTorrents : List TorrentStream :=
  [{ title := some "Big Buck Bunny CAM", name := none, infoHash := "aa" },
   { title := none, name := some "Torrentio 720P", infoHash := "bb" },
   { title := some "Big.Buck.Bunny.1080P.WEB", name := some "Torrentio", infoHash := "cc" },
   { title := some "bbb 1080p x265", name := none, infoHash := "dd" }]

/-! ## Invariants of the store -/

/-- Invariant of the reachable stores. `rev` is the history, most recent event
first. Timer identities are fresh; a timer that ran is no longer pending; each
pending timer is the timer of the entry stored under its token and is due
exactly when the delay of the token's last add has elapsed; each entry has its
timer pending; a token without entry was never added, or removed since, or its
delay has elapsed. -/
structure Inv {ρ : Type} (s : Store ρ) (rev : List (Event ρ)) : Prop where
  idLt : ∀ t ∈ s.timers, t.id < s.nextId
  idInj : ∀ t ∈ s.timers, ∀ u ∈ s.timers, t.id = u.id → t = u
  firedLt : ∀ i ∈ s.fired, i < s.nextId
  firedGone : ∀ i ∈ s.fired, ∀ t ∈ s.timers, t.id ≠ i
  timerOk : ∀ t ∈ s.timers, s.now < t.due ∧ ∃ e la,
    mapGet s.sessions t.token = some e ∧ e.timeoutId = t.id ∧
    lastAddRev t.token rev = some la ∧ la.removed = false ∧ la.record = e.record ∧
    t.due + la.elapsed = s.now + timerDelay la.ttlMs
  entryOk : ∀ tok e, mapGet s.sessions tok = some e →
    ∃ t ∈ s.timers, t.id = e.timeoutId ∧ t.token = tok
  absentOk : ∀ tok, mapGet s.sessions tok = none → ∀ la, lastAddRev tok rev = some la →
    la.removed = true ∨ timerDelay la.ttlMs ≤ la.elapsed

/-- The timer identity `id` has been handed out, is not pending, and its
callback has not run. -/
def Dead {ρ : Type} (id : Nat) (s : Store ρ) : Prop :=
  id < s.nextId ∧ id ∉ s.fired ∧ ∀ t ∈ s.timers, t.id ≠ id

/-- The timer identity `id`, if still pending, belongs to `tok` and is not
due before `delay` has elapsed, `el` of which already has; and it has not run. -/
def Waiting {ρ : Type} (id : Nat) (tok : String) (delay el : Nat) (s : Store ρ) : Prop :=
  id < s.nextId ∧ id ∉ s.fired ∧
    ∀ t ∈ s.timers, t.id = id → t.token = tok ∧ s.now + delay ≤ t.due + el

/-- Three candidates none of which carries a resolution token. -/
def untaggedTorrents : List TorrentStream :=
  [{ title := some "Big Buck Bunny CAM", name := none, infoHash := "aa" },
   { title := some "Big Buck Bunny HDRip", name := some "Torrentio", infoHash := "bb" },
   { title := none, name := none, infoHash := "cc" }]

/-! ## backup.js: the pipeline and its network calls -/

/-- Outcome of `await fetch(url)` and of the `await resp.json()` that follows:
the fetch is rejected, or a response arrives with its `ok` flag, its
`statusText`, and a body that parses as JSON or does not. -/
inductive FetchResult where
  | rejected (msg : String)
  | response (ok : Bool) (statusText : String) (json : Except String JsVal)

/-- The host and the outside world, as backup.js uses them: the network, the
string functions `String.prototype.toLowerCase` and `encodeURIComponent`, the
conversion of a value inside a template literal, and
`process.env.TMDB_API_KEY`. -/
structure Host where
  fetch : String → FetchResult
  toLowerCase : String → String
  encodeURIComponent : String → String
  toStr : JsVal → String
  tmdbApiKey : JsVal

/-- Outcome of an async function together with the URLs it fetched, in order. -/
abbrev Traced (α : Type) : Type := List String × Except JsError α

/-- An outcome without network call. -/
def Traced.lift {α : Type} (r : Except JsError α) : Traced α := ([], r)

/-- Sequencing: what follows runs only when the first part did not throw, and
its calls come after the calls of the first part. -/
def Traced.andThen {α β : Type} (x : Traced α) (f : α → Traced β) : Traced β :=
  match x.2 with
  | .error e => (x.1, .error e)
  | .ok a => (x.1 ++ (f a).1, (f a).2)

/-- `const TRACKERS = [...]`. -/
def TRACKERS : List String :=
  ["udp://tracker.opentrackr.org:1337/announce",
   "udp://open.demonii.com:1337/announce",
   "udp://open.tracker.cl:1337/announce",
   "udp://open.stealth.si:80/announce",
   "udp://tracker.torrent.eu.org:451/announce",
   "udp://explodie.org:6969/announce",
   "udp://tracker.qu.ax:6969/announce",
   "udp://tracker.ololosh.space:6969/announce",
   "udp://tracker.dump.cl:6969/announce",
   "udp://tracker.dler.org:6969/announce",
   "udp://tracker.bittor.pw:1337/announce",
   "udp://tracker-udp.gbitt.info:80/announce",
   "udp://opentracker.io:6969/announce",
   "udp://open.free-tracker.ga:6969/announce",
   "udp://ns-1.x-fins.com:6969/announce",
   "udp://leet-tracker.moe:1337/announce",
   "udp://isk.richardsw.club:6969/announce",
   "udp://discord.heihachi.pw:6969/announce",
   "http://www.torrentsnipe.info:2701/announce",
   "http://www.genesis-sp.org:2710/announce"]

/-- The URL fetched by `getImdbIdFromTmdb`. -/
def tmdbUrl (h : Host) (type tmdbId : JsVal) : String :=
  "https://api.themoviedb.org/3" ++ "/" ++ h.toStr type ++ "/" ++ h.toStr tmdbId
    ++ "/external_ids?api_key=" ++ h.toStr h.tmdbApiKey

/-- `getImdbIdFromTmdb({ type, tmdbId })`. -/
def getImdbIdFromTmdb (h : Host) (type tmdbId : JsVal) : Traced JsVal :=
  let url := tmdbUrl h type tmdbId
  ([url],
    match h.fetch url with
    | .rejected msg => .error (.error msg)
    | .response ok statusText json =>
        if !ok then .error (.error ("TMDB External IDs error: " ++ statusText))
        else
          match json with
          | .error msg => .error (.error msg)
          | .ok data =>
              match data.getProp "imdb_id" with
              | .error e => .error e
              | .ok imdbId => if !imdbId.truthy then .ok .null else .ok imdbId)

/-- `buildTorrentioUrl(type, imdbId, seasonNum, episodeNum)`. -/
def buildTorrentioUrl (h : Host) (type imdbId seasonNum episodeNum : JsVal) : String :=
  let providers := "providers=yts,eztv,rarbg,1337x,thepiratebay,kickasstorrents,torrentgalaxy,magnetdl,horriblesubs,nyaasi,tokyotosho,anidex"
  if type.isStr "movie" then
    "https://torrentio.strem.fun/" ++ providers ++ "/stream/movie/" ++ h.toStr imdbId ++ ".json"
  else
    "https://torrentio.strem.fun/" ++ providers ++ "/stream/series/" ++ h.toStr imdbId ++ ":"
      ++ h.toStr seasonNum ++ ":" ++ h.toStr episodeNum ++ ".json"

/-- `fetchTorrentioStreams({ type, imdbId, seasonNum, episodeNum })`. -/
def fetchTorrentioStreams (h : Host) (type imdbId seasonNum episodeNum : JsVal) : Traced JsVal :=
  let url := buildTorrentioUrl h type imdbId seasonNum episodeNum
  ([url],
    match h.fetch url with
    | .rejected msg => .error (.error msg)
    | .response ok statusText json =>
        if !ok then .error (.error ("Torrentio error: " ++ statusText))
        else
          match json with
          | .error msg => .error (.error msg)
          | .ok data => .ok data)

/-- `v?.toLowerCase()`: nothing for `null` and `undefined`, the lower-cased
string for a string, a `TypeError` for any other value, which has no method
`toLowerCase`. -/
def Js.lowerText (toLowerCase : String → String) : JsVal → Except JsError (Option String)
  | .undefined => .ok none
  | .null => .ok none
  | .str s => .ok (some (toLowerCase s))
  | _ => .error (.typeError "toLowerCase is not a function")

/-- The test of the inner loop of `pickBestTorrentStream` on a JS value,
`s.title?.toLowerCase().includes(res) || s.name?.toLowerCase().includes(res)`:
`s.name` is read only when the title does not match. -/
def Js.matchesRes (toLowerCase : String → String) (s : JsVal) (res : String) :
    Except JsError Bool := do
  let title ← s.getProp "title"
  let t ← Js.lowerText toLowerCase title
  let inTitle :=
    match t with
    | some t => jsIncludes t res
    | none => false
  if inTitle then .ok true
  else
    let name ← s.getProp "name"
    let n ← Js.lowerText toLowerCase name
    match n with
    | some n => .ok (jsIncludes n res)
    | none => .ok false

/-- Inner loop of `pickBestTorrentStream` on a JS value. -/
def Js.rankLoop (toLowerCase : String → String) (s : JsVal) : List String → Nat → Except JsError Int
  | [], _ => .ok (-1)
  | res :: rest, i => do
      let m ← Js.matchesRes toLowerCase s res
      if m then .ok ((resolutionRanking.length : Int) - (i : Int))
      else Js.rankLoop toLowerCase s rest (i + 1)

/-- Outer loop of `pickBestTorrentStream` on JS values. -/
def Js.torrentLoop (toLowerCase : String → String) :
    List JsVal → JsVal × Int → Except JsError (JsVal × Int)
  | [], st => .ok st
  | s :: rest, st => do
      let rank ← Js.rankLoop toLowerCase s resolutionRanking 0
      if rank > st.2 then Js.torrentLoop toLowerCase rest (s, rank)
      else Js.torrentLoop toLowerCase rest st

/-- `pickBestTorrentStream(streams)` on any JS value, as the pipeline calls it
on `torrentioData.streams`. -/
def Js.pickBestTorrentStream (toLowerCase : String → String) (streams : JsVal) :
    Except JsError JsVal :=
  match streams with
  | .arr items =>
      if items.length = 0 then .ok .null
      else do
        let st ← Js.torrentLoop toLowerCase items (.null, -9999)
        .ok st.1
  | _ => .ok .null

/-- `buildMagnetLink(infoHash, name)`. -/
def buildMagnetLink (h : Host) (infoHash name : JsVal) : String :=
  let base := "magnet:?xt=urn:btih:" ++ h.toStr infoHash
  let magnet := if name.truthy then base ++ "&dn=" ++ h.encodeURIComponent (h.toStr name) else base
  TRACKERS.foldl (fun magnet t => magnet ++ "&tr=" ++ h.encodeURIComponent t) magnet

/-- The URL fetched by `fetchM3u8FromMagnet`. -/
def fetchHlsUrl (h : Host) (magnetLink : String) : String :=
  "https://savingshub.online/api/fetchHls" ++ "?magnet=" ++ h.encodeURIComponent magnetLink

/-- `fetchM3u8FromMagnet(magnetLink)`. -/
def fetchM3u8FromMagnet (h : Host) (magnetLink : String) : Traced JsVal :=
  let fullUrl := fetchHlsUrl h magnetLink
  ([fullUrl],
    match h.fetch fullUrl with
    | .rejected msg => .error (.error msg)
    | .response ok statusText json =>
        if !ok then .error (.error ("fetchHls error: " ++ statusText))
        else
          match json with
          | .error msg => .error (.error msg)
          | .ok data =>
              match data.getProp "m3u8Link" with
              | .error e => .error e
              | .ok m3u8Link =>
                  if !m3u8Link.truthy then .error (.error "No m3u8Link in fetchHls response")
                  else .ok m3u8Link)

/-- `getBackupHlsForMedia({ type, tmdbId, title, seasonNum, episodeNum })`;
`title` is not used by the function. -/
def getBackupHlsForMedia (h : Host) (type tmdbId _title seasonNum episodeNum : JsVal) :
    Traced JsVal :=
  (getImdbIdFromTmdb h type tmdbId).andThen fun imdbId =>
  if !imdbId.truthy then Traced.lift (.ok .null) else
  (fetchTorrentioStreams h type imdbId seasonNum episodeNum).andThen fun torrentioData =>
  if !torrentioData.truthy then Traced.lift (.ok .null) else
  (Traced.lift (torrentioData.getProp "streams")).andThen fun streams =>
  if !streams.truthy then Traced.lift (.ok .null) else
  (Traced.lift (Js.pickBestTorrentStream h.toLowerCase streams)).andThen fun bestTorrent =>
  if !bestTorrent.truthy then Traced.lift (.ok .null) else
  (Traced.lift (bestTorrent.getProp "infoHash")).andThen fun infoHash =>
  (Traced.lift (bestTorrent.getProp "name")).andThen fun name =>
  (Traced.lift (if name.truthy then .ok name else bestTorrent.getProp "title")).andThen fun dn =>
  (fetchM3u8FromMagnet h (buildMagnetLink h infoHash dn)).andThen fun m3u8Link =>
  Traced.lift (.ok (.obj [("type", .str "hls"), ("playlist", m3u8Link), ("captions", .arr [])]))

/-- A torrent candidate as the indexer sends it: an object whose `title` and
`name` are strings or missing (`null` included). -/
def wellFormedCandidate (s : JsVal) : Bool :=
  match s with
  | .obj fields =>
      (match mapGet fields "title" with
       | none => true
       | some .undefined => true
       | some .null => true
       | some (.str _) => true
       | _ => false) &&
      (match mapGet fields "name" with
       | none => true
       | some .undefined => true
       | some .null => true
       | some (.str _) => true
       | _ => false)
  | _ => false

/-- The string held by a value, if it is a string. -/
def JsVal.text? : JsVal → Option String
  | .str s => some s
  | _ => none

/-- The property `k` of an object, `undefined` for any other value. -/
def JsVal.field (v : JsVal) (k : String) : JsVal :=
  match v with
  | .obj fields => (mapGet fields k).getD .undefined
  | _ => .undefined

/-- A candidate read as a `TorrentStream`. -/
def toTorrent (s : JsVal) : TorrentStream :=
  { title := (s.field "title").text?
    name := (s.field "name").text?
    infoHash := ((s.field "infoHash").text?).getD "" }

/-- Conversion of a value inside a template literal, for strings and integers;
the other values are not needed in the examples. -/
def sampleToStr : JsVal → String
  | .str s => s
  | .num n => toString n
  | .null => "null"
  | _ => "undefined"

/-- A world in which the catalogue knows no IMDB id for any title. -/
def hostWithoutImdbId : Host :=
  { fetch := fun _ => .response true "OK" (.ok (.obj [("id", .num 603), ("imdb_id", .null)]))
    toLowerCase := asciiLower
    encodeURIComponent := id
    toStr := sampleToStr
    tmdbApiKey := .str "key" }

/-- A world in which the catalogue and the indexer answer, and the conversion
service answers `{}`. -/
def hostWithoutManifest : Host :=
  { fetch := fun url =>
      if url = "https://api.themoviedb.org/3/movie/603/external_ids?api_key=key" then
        .response true "OK" (.ok (.obj [("id", .num 603), ("imdb_id", .str "tt0133093")]))
      else if jsIncludes url "torrentio.strem.fun" then
        .response true "OK" (.ok (.obj [("streams", .arr [
          .obj [("name", .str "Torrentio 1080p"), ("title", .str "The.Matrix.1999"),
                ("infoHash", .str "abcdef")]])]))
      else .response true "OK" (.ok (.obj []))
    toLowerCase := asciiLower
    encodeURIComponent := id
    toStr := sampleToStr
    tmdbApiKey := .str "key" }

/-- One JSON object holding the fields that the three services are read for:
an external id, one candidate, and a manifest link. -/
def manifestAnswer : JsVal :=
  .obj [("imdb_id", .str "tt0133093"),
        ("streams", .arr [
          .obj [("name", .str "Torrentio 1080p"), ("title", .str "The.Matrix.1999"),
                ("infoHash", .str "abcdef")]]),
        ("m3u8Link", .str "https://cdn/matrix.m3u8")]

/-- A world in which every call is answered successfully with `manifestAnswer`. -/
def hostWithManifest : Host :=
  { fetch := fun _ => .response true "OK" (.ok manifestAnswer)
    toLowerCase := asciiLower
    encodeURIComponent := id
    toStr := sampleToStr
    tmdbApiKey := .str "key" }

/-! ## server.js: issuing links -/

/-- The characters matched by `\s` in a JS regular expression. -/
def isJsSpace (c : Char) : Bool :=
  let n := c.toNat
  decide (n = 9 ∨ n = 10 ∨ n = 11 ∨ n = 12 ∨ n = 13 ∨ n = 32 ∨ n = 160 ∨ n = 5760 ∨
    (8192 ≤ n ∧ n ≤ 8202) ∨ n = 8232 ∨ n = 8233 ∨ n = 8239 ∨ n = 8287 ∨ n = 12288 ∨
    n = 65279)

/-- `.replace(/\s+/g, "-")` on the characters of a string: each maximal run of
white space becomes one "-". `inRun` tells that the character before was white
space. -/
def replaceSpaceRuns : Bool → List Char → List Char
  | _, [] => []
  | inRun, c :: cs =>
      if isJsSpace c then
        if inRun then replaceSpaceRuns true cs else '-' :: replaceSpaceRuns true cs
      else c :: replaceSpaceRuns false cs

/-- The object `{ watchUrl, token }` returned by the two link functions. -/
structure LinkResult where
  watchUrl : String
  token : String
deriving DecidableEq

/-- `createStreamLink({ type, tmdbId, title, seasonNum, episodeNum })`, with the
random `token` and `randomLetters`, the value of `Date.now()`, the text of
`BASE_URL` and the host string functions as arguments. The title is a string;
the store before the call is `s`, the store after it is returned. -/
def createStreamLink (baseUrl : String) (toLowerCase encodeURIComponent : String → String)
    (s : Store JsVal) (token randomLetters : String) (dateNow : Int)
    (type tmdbId : JsVal) (title : String) (seasonNum episodeNum : JsVal) :
    Store JsVal × LinkResult :=
  let record := JsVal.obj [("type", type), ("tmdbId", tmdbId), ("title", .str title),
    ("seasonNum", seasonNum), ("episodeNum", episodeNum), ("createdAt", .num dateNow)]
  let s' := addTemporaryRecord s token record (3 * 60 * 60 * 1000)
  let slugTitle := encodeURIComponent (String.mk (replaceSpaceRuns false (toLowerCase title).data))
  let watchUrl := baseUrl ++ "/" ++ randomLetters ++ "-" ++ slugTitle ++ "?token=" ++ token
  (s', { watchUrl := watchUrl, token := token })

/-- `createBackupLink({ type, tmdbId, title, seasonNum, episodeNum })`, with the
same arguments as `createStreamLink`. -/
def createBackupLink (baseUrl : String) (toLowerCase encodeURIComponent : String → String)
    (s : Store JsVal) (token randomLetters : String) (dateNow : Int)
    (type tmdbId : JsVal) (title : String) (seasonNum episodeNum : JsVal) :
    Store JsVal × LinkResult :=
  let record := JsVal.obj [("isBackup", .bool true), ("type", type), ("tmdbId", tmdbId),
    ("title", .str title), ("seasonNum", seasonNum), ("episodeNum", episodeNum),
    ("createdAt", .num dateNow)]
  let s' := addTemporaryRecord s token record (3 * 60 * 60 * 1000)
  let slugTitle := encodeURIComponent (String.mk (replaceSpaceRuns false (toLowerCase title).data))
  let watchUrl := baseUrl ++ "/backup-" ++ randomLetters ++ "-" ++ slugTitle ++ "?token=" ++ token
  (s', { watchUrl := watchUrl, token := token })

/-- The slug of a title as the rule words it: the URL-encoded lower-cased title
with each run of white space replaced by "-". -/
def slugOf (toLowerCase encodeURIComponent : String → String) (title : String) : String :=
  encodeURIComponent (String.mk (replaceSpaceRuns false (toLowerCase title).data))

/-- The record that a primary link stores: the given media fields and the
creation time. -/
def streamRecord (type tmdbId : JsVal) (title : String) (seasonNum episodeNum : JsVal)
    (createdAt : Int) : JsVal :=
  .obj [("type", type), ("tmdbId", tmdbId), ("title", .str title), ("seasonNum", seasonNum),
    ("episodeNum", episodeNum), ("createdAt", .num createdAt)]

/-- The record that a backup link stores: `isBackup: true`, the given media
fields and the creation time. -/
def backupRecord (type tmdbId : JsVal) (title : String) (seasonNum episodeNum : JsVal)
    (createdAt : Int) : JsVal :=
  .obj [("isBackup", .bool true), ("type", type), ("tmdbId", tmdbId), ("title", .str title),
    ("seasonNum", seasonNum), ("episodeNum", episodeNum), ("createdAt", .num createdAt)]

/-! ## The store with timers running one at a time -/

/-- The stores that storage.js can be in, with the event loop taken apart:
starting from module load, a call of `addTemporaryRecord` or
`removeTemporaryRecord` (a call of `getTemporaryRecord` leaves the store as it
is), the clock moving on without any timer running, and one pending timer that
is due running its callback. A timer may thus run later than it is due, with
calls of the store functions in between. -/
inductive Reachable {ρ : Type} : Store ρ → Prop where
  | empty : Reachable Store.empty
  | add (s : Store ρ) (token : String) (data : ρ) (ttlMs : Int) :
      Reachable s → Reachable (addTemporaryRecord s token data ttlMs)
  | remove (s : Store ρ) (token : String) :
      Reachable s → Reachable (removeTemporaryRecord s token)
  | advance (s : Store ρ) (ms : Nat) :
      Reachable s → Reachable { s with now := s.now + ms }
  | fire (s : Store ρ) (t : Timer) :
      Reachable s → t ∈ s.timers → t.due ≤ s.now → Reachable (fireTimer s t)

/-- Pending timers and stored entries are paired: timer identities are
distinct and already handed out, every pending timer is the timer recorded in
the entry stored under its token, and every entry has its timer pending. -/
structure Paired {ρ : Type} (s : Store ρ) : Prop where
  nodupIds : (s.timers.map Timer.id).Nodup
  idBelow : ∀ t ∈ s.timers, t.id < s.nextId
  timerEntry : ∀ t ∈ s.timers, ∃ e, mapGet s.sessions t.token = some e ∧ e.timeoutId = t.id
  entryTimer : ∀ tok e, mapGet s.sessions tok = some e →
    ∃ t ∈ s.timers, t.id = e.timeoutId ∧ t.token = tok

/-! ## Facts about the association list -/

theorem mapGet_mapSet {β : Type} (m : List (String × β)) (k : String) (v : β) (k' : String) :
    mapGet (mapSet m k v) k' = if k = k' then some v else mapGet m k' := by
  induction m with
  | nil => simp [mapSet, mapGet]
  | cons p rest ih =>
    obtain ⟨a, b⟩ := p
    by_cases h : a = k
    · subst h
      by_cases h' : a = k' <;> simp [mapSet, mapGet, h']
    · by_cases h' : a = k'
      · subst h'
        simp [mapSet, mapGet, h, Ne.symm h]
      · simp [mapSet, mapGet, h, h', ih]

theorem mapGet_mapDelete {β : Type} (m : List (String × β)) (k k' : String) :
    mapGet (mapDelete m k) k' = if k = k' then none else mapGet m k' := by
  induction m with
  | nil => simp [mapDelete, mapGet]
  | cons p rest ih =>
    obtain ⟨a, b⟩ := p
    simp only [mapDelete] at ih
    by_cases h : a = k
    · subst h
      by_cases h' : a = k' <;> simp [mapDelete, List.filter_cons, mapGet, h'] at ih ⊢ <;>
        exact ih
    · by_cases h' : a = k'
      · subst h'
        simp [mapDelete, List.filter_cons, mapGet, h, Ne.symm h]
      · simp [mapDelete, List.filter_cons, mapGet, h, h'] at ih ⊢
        exact ih

theorem mapDelete_of_mapGet_none {β : Type} (m : List (String × β)) (k : String)
    (h : mapGet m k = none) : mapDelete m k = m := by
  induction m with
  | nil => rfl
  | cons p rest ih =>
    obtain ⟨a, b⟩ := p
    by_cases hk : a = k
    · simp [mapGet, hk] at h
    · simp only [mapGet, hk, if_false] at h
      have := ih h
      simp only [mapDelete] at this ⊢
      rw [List.filter_cons]
      simp only [ne_eq, hk, not_false_eq_true, decide_True, if_true]
      rw [this]

/-! ## Facts about timers running -/

theorem mem_dueTimers (timers : List Timer) (now : Nat) (t : Timer) :
    t ∈ dueTimers timers now ↔ t ∈ timers ∧ t.due ≤ now := by
  unfold dueTimers
  rw [(List.perm_insertionSort _ _).mem_iff]
  simp [List.mem_filter]

theorem foldl_fireTimer_now {ρ : Type} (l : List Timer) (s : Store ρ) :
    (l.foldl fireTimer s).now = s.now := by
  induction l generalizing s with
  | nil => rfl
  | cons t rest ih => simp [List.foldl_cons, ih, fireTimer]

theorem foldl_fireTimer_nextId {ρ : Type} (l : List Timer) (s : Store ρ) :
    (l.foldl fireTimer s).nextId = s.nextId := by
  induction l generalizing s with
  | nil => rfl
  | cons t rest ih => simp [List.foldl_cons, ih, fireTimer]

theorem mem_foldl_fireTimer_timers {ρ : Type} (l : List Timer) (s : Store ρ) (u : Timer) :
    u ∈ (l.foldl fireTimer s).timers ↔ u ∈ s.timers ∧ ∀ t ∈ l, u.id ≠ t.id := by
  induction l generalizing s with
  | nil => simp
  | cons t rest ih =>
    rw [List.foldl_cons, ih]
    simp only [fireTimer, List.mem_filter, List.mem_cons, forall_eq_or_imp, ne_eq,
      decide_eq_true_eq]
    tauto

theorem mem_foldl_fireTimer_fired {ρ : Type} (l : List Timer) (s : Store ρ) (i : Nat) :
    i ∈ (l.foldl fireTimer s).fired ↔ i ∈ s.fired ∨ ∃ t ∈ l, t.id = i := by
  induction l generalizing s with
  | nil => simp
  | cons t rest ih =>
    rw [List.foldl_cons, ih]
    simp only [fireTimer, List.mem_cons, exists_eq_or_imp]
    constructor
    · rintro ((h | h) | h)
      · exact Or.inr (Or.inl h.symm)
      · exact Or.inl h
      · exact Or.inr (Or.inr h)
    · rintro (h | h | h)
      · exact Or.inl (Or.inr h)
      · exact Or.inl (Or.inl h.symm)
      · exact Or.inr h

theorem mapGet_foldl_fireTimer_of_mem {ρ : Type} (l : List Timer) (s : Store ρ) (tok : String)
    (h : ∃ t ∈ l, t.token = tok) : mapGet (l.foldl fireTimer s).sessions tok = none := by
  induction l generalizing s with
  | nil => simp at h
  | cons t rest ih =>
    rw [List.foldl_cons]
    by_cases hr : ∃ t ∈ rest, t.token = tok
    · exact ih _ hr
    · have ht : t.token = tok := by
        obtain ⟨u, hu, hut⟩ := h
        rcases List.mem_cons.mp hu with rfl | hu
        · exact hut
        · exact absurd ⟨u, hu, hut⟩ hr
      have hkeep : ∀ (s' : Store ρ), mapGet s'.sessions tok = none →
          mapGet (rest.foldl fireTimer s').sessions tok = none := by
        intro s' hs'
        clear ih hr h
        induction rest generalizing s' with
        | nil => exact hs'
        | cons r rest ih2 =>
          rw [List.foldl_cons]
          apply ih2
          simp only [fireTimer, mapGet_mapDelete, hs']
          split <;> rfl
      apply hkeep
      simp [fireTimer, mapGet_mapDelete, ht]

theorem mapGet_foldl_fireTimer_of_not_mem {ρ : Type} (l : List Timer) (s : Store ρ)
    (tok : String) (h : ∀ t ∈ l, t.token ≠ tok) :
    mapGet (l.foldl fireTimer s).sessions tok = mapGet s.sessions tok := by
  induction l generalizing s with
  | nil => rfl
  | cons t rest ih =>
    rw [List.foldl_cons, ih _ (fun u hu => h u (List.mem_cons_of_mem _ hu))]
    simp [fireTimer, mapGet_mapDelete, h t (List.mem_cons_self _ _)]

theorem tick_now {ρ : Type} (s : Store ρ) (ms : Nat) : (tick s ms).now = s.now + ms := by
  simp [tick, foldl_fireTimer_now]

theorem tick_nextId {ρ : Type} (s : Store ρ) (ms : Nat) : (tick s ms).nextId = s.nextId := by
  simp [tick, foldl_fireTimer_nextId]

theorem mem_tick_timers {ρ : Type} (s : Store ρ) (ms : Nat) (u : Timer) :
    u ∈ (tick s ms).timers ↔
      u ∈ s.timers ∧ ∀ t ∈ s.timers, t.due ≤ s.now + ms → u.id ≠ t.id := by
  simp only [tick, mem_foldl_fireTimer_timers, mem_dueTimers]
  constructor
  · rintro ⟨h1, h2⟩
    exact ⟨h1, fun t ht hd => h2 t ⟨ht, hd⟩⟩
  · rintro ⟨h1, h2⟩
    exact ⟨h1, fun t ht => h2 t ht.1 ht.2⟩

theorem mem_tick_fired {ρ : Type} (s : Store ρ) (ms : Nat) (i : Nat) :
    i ∈ (tick s ms).fired ↔
      i ∈ s.fired ∨ ∃ t ∈ s.timers, t.due ≤ s.now + ms ∧ t.id = i := by
  simp only [tick, mem_foldl_fireTimer_fired, mem_dueTimers]
  constructor
  · rintro (h | ⟨t, ⟨h1, h2⟩, h3⟩)
    · exact Or.inl h
    · exact Or.inr ⟨t, h1, h2, h3⟩
  · rintro (h | ⟨t, h1, h2, h3⟩)
    · exact Or.inl h
    · exact Or.inr ⟨t, ⟨h1, h2⟩, h3⟩

theorem mapGet_tick_of_due {ρ : Type} (s : Store ρ) (ms : Nat) (tok : String)
    (h : ∃ t ∈ s.timers, t.due ≤ s.now + ms ∧ t.token = tok) :
    mapGet (tick s ms).sessions tok = none := by
  obtain ⟨t, h1, h2, h3⟩ := h
  exact mapGet_foldl_fireTimer_of_mem _ _ _ ⟨t, (mem_dueTimers _ _ _).mpr ⟨h1, h2⟩, h3⟩

theorem mapGet_tick_of_not_due {ρ : Type} (s : Store ρ) (ms : Nat) (tok : String)
    (h : ∀ t ∈ s.timers, t.due ≤ s.now + ms → t.token ≠ tok) :
    mapGet (tick s ms).sessions tok = mapGet s.sessions tok := by
  unfold tick
  rw [mapGet_foldl_fireTimer_of_not_mem]
  intro t ht
  rw [mem_dueTimers] at ht
  exact h t ht.1 ht.2

/-! ## Components of the store after an add or a remove -/

theorem add_now {ρ : Type} (s : Store ρ) (tok : String) (d : ρ) (ttl : Int) :
    (addTemporaryRecord s tok d ttl).now = s.now := by
  unfold addTemporaryRecord
  cases mapGet s.sessions tok <;> simp [setTimeout, clearTimeout]

theorem add_nextId {ρ : Type} (s : Store ρ) (tok : String) (d : ρ) (ttl : Int) :
    (addTemporaryRecord s tok d ttl).nextId = s.nextId + 1 := by
  unfold addTemporaryRecord
  cases mapGet s.sessions tok <;> simp [setTimeout, clearTimeout]

theorem add_fired {ρ : Type} (s : Store ρ) (tok : String) (d : ρ) (ttl : Int) :
    (addTemporaryRecord s tok d ttl).fired = s.fired := by
  unfold addTemporaryRecord
  cases mapGet s.sessions tok <;> simp [setTimeout, clearTimeout]

theorem add_sessions {ρ : Type} (s : Store ρ) (tok : String) (d : ρ) (ttl : Int) :
    (addTemporaryRecord s tok d ttl).sessions
      = mapSet s.sessions tok { record := d, timeoutId := s.nextId } := by
  unfold addTemporaryRecord
  cases mapGet s.sessions tok <;> simp [setTimeout, clearTimeout]

theorem mem_add_timers {ρ : Type} (s : Store ρ) (tok : String) (d : ρ) (ttl : Int) (u : Timer) :
    u ∈ (addTemporaryRecord s tok d ttl).timers ↔
      (u ∈ s.timers ∧ ∀ e, mapGet s.sessions tok = some e → u.id ≠ e.timeoutId)
        ∨ u = { id := s.nextId, due := s.now + timerDelay ttl, token := tok } := by
  unfold addTemporaryRecord
  cases h : mapGet s.sessions tok <;>
    simp [setTimeout, clearTimeout, List.mem_filter]

theorem remove_now {ρ : Type} (s : Store ρ) (tok : String) :
    (removeTemporaryRecord s tok).now = s.now := by
  unfold removeTemporaryRecord
  cases mapGet s.sessions tok <;> simp [clearTimeout]

theorem remove_nextId {ρ : Type} (s : Store ρ) (tok : String) :
    (removeTemporaryRecord s tok).nextId = s.nextId := by
  unfold removeTemporaryRecord
  cases mapGet s.sessions tok <;> simp [clearTimeout]

theorem remove_fired {ρ : Type} (s : Store ρ) (tok : String) :
    (removeTemporaryRecord s tok).fired = s.fired := by
  unfold removeTemporaryRecord
  cases mapGet s.sessions tok <;> simp [clearTimeout]

theorem mapGet_remove {ρ : Type} (s : Store ρ) (tok tok' : String) :
    mapGet (removeTemporaryRecord s tok).sessions tok'
      = if tok = tok' then none else mapGet s.sessions tok' := by
  unfold removeTemporaryRecord
  cases h : mapGet s.sessions tok with
  | none =>
    by_cases hk : tok = tok'
    · subst hk; simp [h]
    · simp [hk]
  | some e => simp [clearTimeout, mapGet_mapDelete]

theorem mem_remove_timers {ρ : Type} (s : Store ρ) (tok : String) (u : Timer) :
    u ∈ (removeTemporaryRecord s tok).timers ↔
      u ∈ s.timers ∧ ∀ e, mapGet s.sessions tok = some e → u.id ≠ e.timeoutId := by
  unfold removeTemporaryRecord
  cases h : mapGet s.sessions tok <;>
    simp [clearTimeout, List.mem_filter]

theorem timerDelay_pos (ttl : Int) : 1 ≤ timerDelay ttl := by
  unfold timerDelay
  split
  · omega
  · exact le_refl 1

theorem timerDelay_of_inRange (ttl : Int) (h : 1 ≤ ttl ∧ ttl ≤ TIMEOUT_MAX) :
    (timerDelay ttl : Int) = ttl := by
  unfold timerDelay
  rw [if_pos h]
  omega

/-! ## The invariant tying the store to its history -/

theorem Inv.empty {ρ : Type} : Inv (Store.empty : Store ρ) [] := by
  constructor <;> simp [Store.empty, mapGet, lastAddRev]

/-- In an invariant store the pending timers of a token are the timer of its entry. -/
theorem Inv.timer_of_token {ρ : Type} {s : Store ρ} {rev : List (Event ρ)} (h : Inv s rev)
    {u : Timer} (hu : u ∈ s.timers) {e : Entry ρ} (he : mapGet s.sessions u.token = some e) :
    u.id = e.timeoutId := by
  obtain ⟨_, e', _, h1, h2, _⟩ := h.timerOk u hu
  rw [he] at h1
  cases h1
  exact h2.symm

/-- In an invariant store the timer of an entry belongs to no other token. -/
theorem Inv.token_of_timer {ρ : Type} {s : Store ρ} {rev : List (Event ρ)} (h : Inv s rev)
    {u : Timer} (hu : u ∈ s.timers) {tok : String} {e : Entry ρ}
    (he : mapGet s.sessions tok = some e) (hid : u.id = e.timeoutId) : u.token = tok := by
  obtain ⟨t, ht, htid, httok⟩ := h.entryOk tok e he
  have : u = t := h.idInj u hu t ht (hid.trans htid.symm)
  rw [this]; exact httok

theorem Inv.get {ρ : Type} {s : Store ρ} {rev : List (Event ρ)} (h : Inv s rev) (tok : String) :
    Inv s (Event.get tok :: rev) := by
  constructor
  · exact h.idLt
  · exact h.idInj
  · exact h.firedLt
  · exact h.firedGone
  · simpa [lastAddRev] using h.timerOk
  · exact h.entryOk
  · simpa [lastAddRev] using h.absentOk

theorem Inv.add {ρ : Type} {s : Store ρ} {rev : List (Event ρ)} (h : Inv s rev)
    (tok : String) (d : ρ) (ttl : Int) :
    Inv (addTemporaryRecord s tok d ttl) (Event.add tok d ttl :: rev) := by
  have hold : ∀ u, u ∈ s.timers →
      (∀ e, mapGet s.sessions tok = some e → u.id ≠ e.timeoutId) → u.token ≠ tok := by
    intro u hu hne htok
    obtain ⟨_, e, _, h1, h2, _⟩ := h.timerOk u hu
    rw [htok] at h1
    exact hne e h1 h2.symm
  constructor
  · intro t ht
    rw [add_nextId]
    rcases (mem_add_timers _ _ _ _ _).mp ht with ⟨h1, _⟩ | rfl
    · exact Nat.lt_succ_of_lt (h.idLt t h1)
    · exact Nat.lt_succ_self _
  · intro t ht u hu hid
    rcases (mem_add_timers _ _ _ _ _).mp ht with ⟨h1, _⟩ | rfl <;>
      rcases (mem_add_timers _ _ _ _ _).mp hu with ⟨h2, _⟩ | rfl
    · exact h.idInj t h1 u h2 hid
    · have := h.idLt t h1
      simp only at hid
      omega
    · have := h.idLt u h2
      simp only at hid
      omega
    · rfl
  · intro i hi
    rw [add_fired] at hi
    rw [add_nextId]
    exact Nat.lt_succ_of_lt (h.firedLt i hi)
  · intro i hi t ht
    rw [add_fired] at hi
    rcases (mem_add_timers _ _ _ _ _).mp ht with ⟨h1, _⟩ | rfl
    · exact h.firedGone i hi t h1
    · have := h.firedLt i hi
      simp only
      omega
  · intro t ht
    rw [add_now, add_sessions]
    rcases (mem_add_timers _ _ _ _ _).mp ht with ⟨h1, h2⟩ | rfl
    · have hne : t.token ≠ tok := hold t h1 h2
      obtain ⟨hdue, e, la, g1, g2, g3, g4, g5, g6⟩ := h.timerOk t h1
      refine ⟨hdue, e, la, ?_, g2, ?_, g4, g5, g6⟩
      · rw [mapGet_mapSet, if_neg (Ne.symm hne)]; exact g1
      · simp only [lastAddRev, if_neg (Ne.symm hne)]; exact g3
    · refine ⟨?_, { record := d, timeoutId := s.nextId },
        { record := d, ttlMs := ttl, elapsed := 0, removed := false }, ?_, rfl, ?_, rfl, rfl, ?_⟩
      · have := timerDelay_pos ttl
        simp only
        omega
      · simp [mapGet_mapSet]
      · simp [lastAddRev]
      · simp
  · intro tok' e he
    rw [add_sessions, mapGet_mapSet] at he
    by_cases hk : tok = tok'
    · subst hk
      rw [if_pos rfl] at he
      cases he
      exact ⟨_, (mem_add_timers _ _ _ _ _).mpr (Or.inr rfl), rfl, rfl⟩
    · rw [if_neg hk] at he
      obtain ⟨t, ht, htid, httok⟩ := h.entryOk tok' e he
      refine ⟨t, (mem_add_timers _ _ _ _ _).mpr (Or.inl ⟨ht, ?_⟩), htid, httok⟩
      intro e0 he0 hid
      have := h.token_of_timer ht he0 hid
      exact hk (this.symm.trans httok)
  · intro tok' hnone la hla
    rw [add_sessions, mapGet_mapSet] at hnone
    by_cases hk : tok = tok'
    · rw [if_pos hk] at hnone
      cases hnone
    · rw [if_neg hk] at hnone
      simp only [lastAddRev, if_neg hk] at hla
      exact h.absentOk tok' hnone la hla

theorem Inv.remove {ρ : Type} {s : Store ρ} {rev : List (Event ρ)} (h : Inv s rev)
    (tok : String) :
    Inv (removeTemporaryRecord s tok) (Event.remove tok :: rev) := by
  have hold : ∀ u, u ∈ s.timers →
      (∀ e, mapGet s.sessions tok = some e → u.id ≠ e.timeoutId) → u.token ≠ tok := by
    intro u hu hne htok
    obtain ⟨_, e, _, h1, h2, _⟩ := h.timerOk u hu
    rw [htok] at h1
    exact hne e h1 h2.symm
  constructor
  · intro t ht
    rw [remove_nextId]
    exact h.idLt t ((mem_remove_timers _ _ _).mp ht).1
  · intro t ht u hu hid
    exact h.idInj t ((mem_remove_timers _ _ _).mp ht).1 u ((mem_remove_timers _ _ _).mp hu).1 hid
  · intro i hi
    rw [remove_fired] at hi
    rw [remove_nextId]
    exact h.firedLt i hi
  · intro i hi t ht
    rw [remove_fired] at hi
    exact h.firedGone i hi t ((mem_remove_timers _ _ _).mp ht).1
  · intro t ht
    rw [remove_now, mapGet_remove]
    obtain ⟨h1, h2⟩ := (mem_remove_timers _ _ _).mp ht
    have hne : t.token ≠ tok := hold t h1 h2
    obtain ⟨hdue, e, la, g1, g2, g3, g4, g5, g6⟩ := h.timerOk t h1
    refine ⟨hdue, e, { la with removed := la.removed || decide (tok = t.token) },
      ?_, g2, ?_, ?_, g5, g6⟩
    · rw [if_neg (Ne.symm hne)]; exact g1
    · simp only [lastAddRev, g3, Option.map_some']
    · simp [g4, Ne.symm hne]
  · intro tok' e he
    rw [mapGet_remove] at he
    by_cases hk : tok = tok'
    · rw [if_pos hk] at he
      cases he
    · rw [if_neg hk] at he
      obtain ⟨t, ht, htid, httok⟩ := h.entryOk tok' e he
      refine ⟨t, (mem_remove_timers _ _ _).mpr ⟨ht, ?_⟩, htid, httok⟩
      intro e0 he0 hid
      have := h.token_of_timer ht he0 hid
      exact hk (this.symm.trans httok)
  · intro tok' hnone la hla
    rw [mapGet_remove] at hnone
    simp only [lastAddRev] at hla
    cases hprev : lastAddRev tok' rev with
    | none => rw [hprev] at hla; cases hla
    | some la0 =>
      rw [hprev] at hla
      simp only [Option.map_some', Option.some.injEq] at hla
      subst hla
      by_cases hk : tok = tok'
      · left; simp [hk]
      · rw [if_neg hk] at hnone
        rcases h.absentOk tok' hnone la0 hprev with h1 | h1
        · left; simp [h1]
        · right; exact h1

theorem Inv.tick {ρ : Type} {s : Store ρ} {rev : List (Event ρ)} (h : Inv s rev) (ms : Nat) :
    Inv (tick s ms) (Event.tick ms :: rev) := by
  have hnotdue : ∀ u, u ∈ (Vini.tick s ms).timers → s.now + ms < u.due := by
    intro u hu
    obtain ⟨h1, h2⟩ := (mem_tick_timers _ _ _).mp hu
    by_contra hcon
    exact h2 u h1 (Nat.le_of_not_lt hcon) rfl
  constructor
  · intro t ht
    rw [tick_nextId]
    exact h.idLt t ((mem_tick_timers _ _ _).mp ht).1
  · intro t ht u hu hid
    exact h.idInj t ((mem_tick_timers _ _ _).mp ht).1 u ((mem_tick_timers _ _ _).mp hu).1 hid
  · intro i hi
    rw [tick_nextId]
    rcases (mem_tick_fired _ _ _).mp hi with h1 | ⟨t, h1, _, h3⟩
    · exact h.firedLt i h1
    · rw [← h3]; exact h.idLt t h1
  · intro i hi t ht
    obtain ⟨g1, g2⟩ := (mem_tick_timers _ _ _).mp ht
    rcases (mem_tick_fired _ _ _).mp hi with h1 | ⟨u, h1, h2, h3⟩
    · exact h.firedGone i h1 t g1
    · rw [← h3]; exact g2 u h1 h2
  · intro t ht
    rw [tick_now]
    obtain ⟨g1, g2⟩ := (mem_tick_timers _ _ _).mp ht
    obtain ⟨_, e, la, k1, k2, k3, k4, k5, k6⟩ := h.timerOk t g1
    refine ⟨hnotdue t ht, e, { la with elapsed := la.elapsed + ms }, ?_, k2, ?_, k4, k5, ?_⟩
    · rw [mapGet_tick_of_not_due]
      · exact k1
      · intro u hu hdue htok
        have hid : u.id = e.timeoutId := h.timer_of_token hu (by rw [htok]; exact k1)
        exact g2 u hu hdue (k2.symm.trans hid.symm)
    · simp only [lastAddRev, k3, Option.map_some']
    · simp only
      omega
  · intro tok e he
    by_cases hdue : ∃ t ∈ s.timers, t.due ≤ s.now + ms ∧ t.token = tok
    · rw [mapGet_tick_of_due _ _ _ hdue] at he
      cases he
    · have hnd : ∀ t ∈ s.timers, t.due ≤ s.now + ms → t.token ≠ tok :=
        fun t ht hd htok => hdue ⟨t, ht, hd, htok⟩
      rw [mapGet_tick_of_not_due _ _ _ hnd] at he
      obtain ⟨t, ht, htid, httok⟩ := h.entryOk tok e he
      refine ⟨t, (mem_tick_timers _ _ _).mpr ⟨ht, ?_⟩, htid, httok⟩
      intro u hu hud hid
      have : t = u := h.idInj t ht u hu hid
      subst this
      exact hnd t ht hud httok
  · intro tok hnone la hla
    simp only [lastAddRev] at hla
    cases hprev : lastAddRev tok rev with
    | none => rw [hprev] at hla; cases hla
    | some la0 =>
      rw [hprev] at hla
      simp only [Option.map_some', Option.some.injEq] at hla
      subst hla
      by_cases hdue : ∃ t ∈ s.timers, t.due ≤ s.now + ms ∧ t.token = tok
      · obtain ⟨t, ht, hd, htok⟩ := hdue
        obtain ⟨_, e, la1, k1, k2, k3, k4, k5, k6⟩ := h.timerOk t ht
        rw [htok, hprev] at k3
        cases k3
        right
        simp only
        omega
      · have hnd : ∀ t ∈ s.timers, t.due ≤ s.now + ms → t.token ≠ tok :=
          fun t ht hd htok => hdue ⟨t, ht, hd, htok⟩
        rw [mapGet_tick_of_not_due _ _ _ hnd] at hnone
        rcases h.absentOk tok hnone la0 hprev with h1 | h1
        · left; exact h1
        · right
          simp only
          omega

theorem Inv.step_inv {ρ : Type} {s : Store ρ} {rev : List (Event ρ)} (h : Inv s rev)
    (e : Event ρ) : Inv (step s e) (e :: rev) := by
  cases e with
  | add tok d ttl => exact h.add tok d ttl
  | get tok => exact h.get tok
  | remove tok => exact h.remove tok
  | tick ms => exact h.tick ms

theorem Inv.runFrom_inv {ρ : Type} (tr : List (Event ρ)) {s : Store ρ} {rev : List (Event ρ)}
    (h : Inv s rev) : Inv (runFrom s tr) (tr.reverse ++ rev) := by
  induction tr generalizing s rev with
  | nil => simpa [Vini.runFrom] using h
  | cons e rest ih =>
    have := ih (h.step_inv e)
    simpa [Vini.runFrom, List.reverse_cons, List.append_assoc] using this

theorem Inv.run {ρ : Type} (tr : List (Event ρ)) : Inv (run tr) tr.reverse := by
  have := Inv.runFrom_inv tr (Inv.empty (ρ := ρ))
  simpa [Vini.run] using this

/-- What a read returns in an invariant store, in terms of the history: the
record of the last add, provided it was not removed since and the delay of
its timer has not elapsed. -/
theorem Inv.getTemporaryRecord_eq {ρ : Type} {s : Store ρ} {rev : List (Event ρ)}
    (h : Inv s rev) (tok : String) :
    getTemporaryRecord s tok =
      match lastAddRev tok rev with
      | none => none
      | some la =>
          if la.removed = false ∧ la.elapsed < timerDelay la.ttlMs then some la.record else none := by
  unfold getTemporaryRecord
  cases he : mapGet s.sessions tok with
  | some e =>
    obtain ⟨t, ht, htid, httok⟩ := h.entryOk tok e he
    obtain ⟨hdue, e', la, k1, k2, k3, k4, k5, k6⟩ := h.timerOk t ht
    rw [httok] at k1 k3
    rw [he] at k1
    cases k1
    rw [k3]
    simp only
    rw [if_pos ⟨k4, by omega⟩, k5]
  | none =>
    cases hla : lastAddRev tok rev with
    | none => rfl
    | some la =>
      simp only
      rcases h.absentOk tok he la hla with h1 | h1
      · rw [if_neg]; simp [h1]
      · rw [if_neg]; intro hc; omega

/-! ## Histories -/

theorem runFrom_append {ρ : Type} (s : Store ρ) (a b : List (Event ρ)) :
    runFrom s (a ++ b) = runFrom (runFrom s a) b := by
  simp [runFrom, List.foldl_append]

theorem runFrom_cons {ρ : Type} (s : Store ρ) (e : Event ρ) (tr : List (Event ρ)) :
    runFrom s (e :: tr) = runFrom (step s e) tr := rfl

theorem run_append {ρ : Type} (a b : List (Event ρ)) : run (a ++ b) = runFrom (run a) b := by
  simp [run, runFrom_append]

/-- The last add reported for a token is an add event of the history. -/
theorem mem_of_lastAddRev {ρ : Type} (tok : String) (rev : List (Event ρ)) (la : LastAdd ρ)
    (h : lastAddRev tok rev = some la) : ∃ d, Event.add tok d la.ttlMs ∈ rev := by
  induction rev generalizing la with
  | nil => simp [lastAddRev] at h
  | cons e rest ih =>
    cases e with
    | add t d ttl =>
      simp only [lastAddRev] at h
      by_cases hk : t = tok
      · rw [if_pos hk] at h
        cases h
        exact ⟨d, by rw [hk]; exact List.mem_cons_self _ _⟩
      · rw [if_neg hk] at h
        obtain ⟨d', hd'⟩ := ih la h
        exact ⟨d', List.mem_cons_of_mem _ hd'⟩
    | get t =>
      simp only [lastAddRev] at h
      obtain ⟨d', hd'⟩ := ih la h
      exact ⟨d', List.mem_cons_of_mem _ hd'⟩
    | remove t =>
      simp only [lastAddRev] at h
      cases hp : lastAddRev tok rest with
      | none => rw [hp] at h; cases h
      | some la0 =>
        rw [hp] at h
        simp only [Option.map_some', Option.some.injEq] at h
        subst h
        obtain ⟨d', hd'⟩ := ih la0 hp
        exact ⟨d', List.mem_cons_of_mem _ hd'⟩
    | tick ms =>
      simp only [lastAddRev] at h
      cases hp : lastAddRev tok rest with
      | none => rw [hp] at h; cases h
      | some la0 =>
        rw [hp] at h
        simp only [Option.map_some', Option.some.injEq] at h
        subst h
        obtain ⟨d', hd'⟩ := ih la0 hp
        exact ⟨d', List.mem_cons_of_mem _ hd'⟩

/-- Events that neither add nor remove the token only let its clock run. -/
theorem lastAddRev_untouched {ρ : Type} (tok : String) (post rev : List (Event ρ))
    (h : untouched tok post = true) :
    lastAddRev tok (post.reverse ++ rev) =
      (lastAddRev tok rev).map fun la => { la with elapsed := la.elapsed + elapsedOf post } := by
  induction post generalizing rev with
  | nil =>
    cases hp : lastAddRev tok rev <;> simp [elapsedOf, hp]
  | cons e rest ih =>
    rw [List.reverse_cons, List.append_assoc, List.singleton_append]
    cases e with
    | add t d ttl =>
      simp only [untouched, Bool.and_eq_true, decide_eq_true_eq] at h
      rw [ih _ h.2]
      simp only [lastAddRev, if_neg h.1, elapsedOf]
    | get t =>
      simp only [untouched] at h
      rw [ih _ h]
      simp only [lastAddRev, elapsedOf]
    | remove t =>
      simp only [untouched, Bool.and_eq_true, decide_eq_true_eq] at h
      rw [ih _ h.2]
      cases hp : lastAddRev tok rev <;> simp [lastAddRev, elapsedOf, h.1, hp]
    | tick ms =>
      simp only [untouched] at h
      rw [ih _ h]
      cases hp : lastAddRev tok rev <;> simp [lastAddRev, elapsedOf, hp]
      omega

/-! ## Timers that can no longer run -/

theorem Dead.step_dead {ρ : Type} {id : Nat} {s : Store ρ} (h : Dead id s) (e : Event ρ) :
    Dead id (step s e) := by
  obtain ⟨h1, h2, h3⟩ := h
  cases e with
  | add tok d ttl =>
    refine ⟨?_, ?_, ?_⟩
    · simp only [Vini.step, add_nextId]; omega
    · simpa only [Vini.step, add_fired] using h2
    · intro t ht
      rcases (mem_add_timers _ _ _ _ _).mp ht with ⟨g1, _⟩ | rfl
      · exact h3 t g1
      · simp only; omega
  | get tok => exact ⟨h1, h2, h3⟩
  | remove tok =>
    refine ⟨?_, ?_, ?_⟩
    · simpa only [Vini.step, remove_nextId] using h1
    · simpa only [Vini.step, remove_fired] using h2
    · intro t ht
      exact h3 t ((mem_remove_timers _ _ _).mp ht).1
  | tick ms =>
    refine ⟨?_, ?_, ?_⟩
    · simpa only [Vini.step, tick_nextId] using h1
    · intro hc
      rcases (mem_tick_fired _ _ _).mp hc with g | ⟨t, g1, _, g3⟩
      · exact h2 g
      · exact h3 t g1 g3
    · intro t ht
      exact h3 t ((mem_tick_timers _ _ _).mp ht).1

theorem Dead.runFrom_dead {ρ : Type} {id : Nat} (tr : List (Event ρ)) {s : Store ρ}
    (h : Dead id s) : Dead id (runFrom s tr) := by
  induction tr generalizing s with
  | nil => exact h
  | cons e rest ih => exact ih (h.step_dead e)

theorem Waiting.runFrom_waiting {ρ : Type} {id : Nat} {tok : String} {delay : Nat}
    (tr : List (Event ρ)) {s : Store ρ} {el : Nat} (h : Waiting id tok delay el s)
    (hel : el + elapsedOf tr < delay) :
    Waiting id tok delay (el + elapsedOf tr) (runFrom s tr) := by
  induction tr generalizing s el with
  | nil => simpa [elapsedOf, Vini.runFrom] using h
  | cons e rest ih =>
    obtain ⟨h1, h2, h3⟩ := h
    rw [runFrom_cons]
    cases e with
    | add t d ttl =>
      simp only [elapsedOf] at hel ⊢
      apply ih _ hel
      refine ⟨?_, ?_, ?_⟩
      · simp only [step, add_nextId]; omega
      · simpa only [step, add_fired] using h2
      · intro u hu hid
        simp only [step, add_now]
        rcases (mem_add_timers _ _ _ _ _).mp hu with ⟨g1, _⟩ | rfl
        · exact h3 u g1 hid
        · simp only at hid; omega
    | get t =>
      simp only [elapsedOf] at hel ⊢
      exact ih ⟨h1, h2, h3⟩ hel
    | remove t =>
      simp only [elapsedOf] at hel ⊢
      apply ih _ hel
      refine ⟨?_, ?_, ?_⟩
      · simpa only [step, remove_nextId] using h1
      · simpa only [step, remove_fired] using h2
      · intro u hu hid
        simp only [step, remove_now]
        exact h3 u ((mem_remove_timers _ _ _).mp hu).1 hid
    | tick ms =>
      simp only [elapsedOf] at hel ⊢
      rw [← Nat.add_assoc] at hel ⊢
      apply ih _ hel
      refine ⟨?_, ?_, ?_⟩
      · simpa only [step, tick_nextId] using h1
      · intro hc
        rcases (mem_tick_fired _ _ _).mp hc with g | ⟨u, g1, g2, g3⟩
        · exact h2 g
        · have := (h3 u g1 g3).2
          omega
      · intro u hu hid
        simp only [step, tick_now]
        have := h3 u ((mem_tick_timers _ _ _).mp hu).1 hid
        exact ⟨this.1, by omega⟩

/-! ## The store: retrievability (C1) -/

/-- C1, as stated, fails in two ways. A record added with `ttlMs = 0` is
returned by a read made right after the add, although no time less than 0 can
have elapsed. A record added with `ttlMs = 2147483648` is gone 1 ms later,
although far less than its TTL has elapsed: the host timer does not accept a
delay above 2147483647 and uses 1 ms instead. -/
theorem retrievable_counterexample :
    (getTemporaryRecord (run [Event.add "abc123" "movie" 0]) "abc123" = some "movie" ∧
      retrievable [Event.add "abc123" "movie" 0] "abc123" = none) ∧
    (getTemporaryRecord (run [Event.add "abc123" "movie" 2147483648, Event.tick 1]) "abc123"
        = none ∧
      retrievable [Event.add "abc123" "movie" 2147483648, Event.tick 1] "abc123"
        = some "movie") := by
  decide

/-- C1 (amended): after any history of adds, reads, removes and time passing
in which every add asks for a TTL between 1 and 2147483647 ms, a read of any
token returns exactly what the retrievability rule says: the record of the
token's most recent add when no remove of the token followed it and less than
its `ttlMs` has elapsed since, and null otherwise (so null for a token never
added, and null from the moment the TTL has elapsed). -/
theorem getTemporaryRecord_eq_retrievable {ρ : Type} (tr : List (Event ρ))
    (httl : ttlsInRange tr = true) (token : String) :
    getTemporaryRecord (run tr) token = retrievable tr token := by
  rw [(Inv.run tr).getTemporaryRecord_eq token]
  unfold retrievable lastAdd
  cases hla : lastAddRev token tr.reverse with
  | none => rfl
  | some la =>
    obtain ⟨d, hd⟩ := mem_of_lastAddRev token _ la hla
    have hr : 1 ≤ la.ttlMs ∧ la.ttlMs ≤ TIMEOUT_MAX := by
      have := List.all_eq_true.mp httl _ (List.mem_reverse.mp hd)
      simpa using this
    have hdelay := timerDelay_of_inRange la.ttlMs hr
    simp only
    by_cases hc : la.removed = false ∧ la.elapsed < timerDelay la.ttlMs
    · rw [if_pos hc, if_pos ⟨hc.1, by have := hc.2; omega⟩]
    · rw [if_neg hc, if_neg]
      intro hc'
      exact hc ⟨hc'.1, by have := hc'.2; omega⟩

/-- C1 (amended) at a concrete history: a record added for 3 hours, read 10 s
before and exactly at the end of its TTL. -/
theorem getTemporaryRecord_eq_retrievable_witness :
    ttlsInRange [Event.add "abc123" "movie" 10800000, Event.tick 10790000, Event.get "abc123",
        Event.tick 10000] = true ∧
      getTemporaryRecord (run [Event.add "abc123" "movie" 10800000, Event.tick 10790000,
        Event.get "abc123", Event.tick 10000]) "abc123"
      = retrievable [Event.add "abc123" "movie" 10800000, Event.tick 10790000,
        Event.get "abc123", Event.tick 10000] "abc123" :=
  ⟨by decide, getTemporaryRecord_eq_retrievable _ (by decide) "abc123"⟩

/-! ## The store: re-inserting a token (C2) -/

/-- C2, as stated, fails when the new TTL is above what the host timer
accepts: "abc123" is added for 5 ms and, 1 ms later, again with
`ttlMs = 2147483648 > 0`; 2 ms after the second add the record is gone,
although the claim keeps it for 2147483648 ms. -/
theorem readd_counterexample :
    (0 : Int) < 5 ∧ (0 : Int) < 2147483648 ∧ ((1 : Nat) : Int) < 5 ∧
      ((2 : Nat) : Int) < 2147483648 ∧
      getTemporaryRecord
        (run [Event.add "abc123" "first" 5, Event.tick 1,
              Event.add "abc123" "second" 2147483648, Event.tick 2]) "abc123" = none := by
  decide

/-- C2 (amended): let a token be added with record `r1` and TTL `t1`, and
added again with `r2` and TTL `t2` after events `mid` during which less than
`t1` elapses, both TTLs between 1 and 2147483647 ms, in any reachable store.
The first add schedules the timer with identity `(run pre).nextId`; whatever
events `post` follow the second add, that timer never runs; and as long as
`post` neither adds nor removes the token, a read returns `r2` while less than
`t2` has elapsed since the second add and null from then on (also when that is
later than `t1` after the first add). -/
theorem readd_resets_clock {ρ : Type} (pre mid post : List (Event ρ)) (token : String)
    (r1 r2 : ρ) (t1 t2 : Int) (h1 : 1 ≤ t1 ∧ t1 ≤ TIMEOUT_MAX) (h2 : 1 ≤ t2 ∧ t2 ≤ TIMEOUT_MAX)
    (hmid : (elapsedOf mid : Int) < t1) :
    mapGet (run (pre ++ [Event.add token r1 t1])).sessions token
        = some { record := r1, timeoutId := (run pre).nextId } ∧
      (run pre).nextId ∉
        (run (pre ++ Event.add token r1 t1 :: mid ++ Event.add token r2 t2 :: post)).fired ∧
      (untouched token post = true →
        getTemporaryRecord
          (run (pre ++ Event.add token r1 t1 :: mid ++ Event.add token r2 t2 :: post)) token
          = if (elapsedOf post : Int) < t2 then some r2 else none) := by
  have hd1 := timerDelay_of_inRange t1 h1
  have hd2 := timerDelay_of_inRange t2 h2
  refine ⟨?_, ?_, ?_⟩
  · rw [run_append]
    simp [runFrom, step, add_sessions, mapGet_mapSet]
  · have hinv0 : Inv (run pre) pre.reverse := Inv.run pre
    -- after the first add the new timer waits for its full delay
    have hw1 : Waiting (run pre).nextId token (timerDelay t1) 0
        (addTemporaryRecord (run pre) token r1 t1) := by
      refine ⟨?_, ?_, ?_⟩
      · rw [add_nextId]; omega
      · rw [add_fired]
        intro hc
        exact Nat.lt_irrefl _ (hinv0.firedLt _ hc)
      · intro t ht hid
        rw [add_now]
        rcases (mem_add_timers _ _ _ _ _).mp ht with ⟨g1, _⟩ | rfl
        · have := hinv0.idLt t g1
          omega
        · exact ⟨rfl, by simp⟩
    have hw2 := Waiting.runFrom_waiting mid hw1 (by omega)
    have hinv2 : Inv (runFrom (addTemporaryRecord (run pre) token r1 t1) mid)
        (mid.reverse ++ (Event.add token r1 t1 :: pre.reverse)) :=
      Inv.runFrom_inv mid (hinv0.add token r1 t1)
    -- the second add cancels it
    have hdead : Dead (run pre).nextId
        (addTemporaryRecord (runFrom (addTemporaryRecord (run pre) token r1 t1) mid)
          token r2 t2) := by
      obtain ⟨w1, w2, w3⟩ := hw2
      refine ⟨?_, ?_, ?_⟩
      · rw [add_nextId]; omega
      · rw [add_fired]; exact w2
      · intro t ht hid
        rcases (mem_add_timers _ _ _ _ _).mp ht with ⟨g1, g2⟩ | rfl
        · have htok := (w3 t g1 hid).1
          obtain ⟨_, e, _, k1, k2, _⟩ := hinv2.timerOk t g1
          rw [htok] at k1
          exact g2 e k1 k2.symm
        · simp only at hid
          omega
    have := (Dead.runFrom_dead post hdead).2.1
    have hrun : run (pre ++ Event.add token r1 t1 :: mid ++ Event.add token r2 t2 :: post)
        = runFrom (addTemporaryRecord (runFrom (addTemporaryRecord (run pre) token r1 t1) mid)
            token r2 t2) post := by
      rw [run_append, run_append, runFrom_cons, runFrom_cons]
      rfl
    rw [hrun]
    exact this
  · intro hpost
    rw [(Inv.run _).getTemporaryRecord_eq token]
    have hrev : (pre ++ Event.add token r1 t1 :: mid ++ Event.add token r2 t2 :: post).reverse
        = post.reverse ++ (Event.add token r2 t2 :: (pre ++ Event.add token r1 t1 :: mid).reverse) := by
      simp [List.reverse_append, List.reverse_cons, List.append_assoc]
    rw [hrev, lastAddRev_untouched token post _ hpost]
    simp only [lastAddRev, if_true, Option.map_some', Nat.zero_add, true_and]
    by_cases hc : elapsedOf post < timerDelay t2
    · rw [if_pos hc, if_pos (by omega)]
    · rw [if_neg hc, if_neg (by omega)]

/-- C2 (amended) at a concrete history: "abc123" is added for 5 ms and, 3 ms
later, again for 10 ms; 9 ms after that, well past the first TTL, the second
record is still there. -/
theorem readd_resets_clock_witness :
    ((1 : Int) ≤ 5 ∧ (5 : Int) ≤ TIMEOUT_MAX) ∧ ((1 : Int) ≤ 10 ∧ (10 : Int) ≤ TIMEOUT_MAX) ∧
      ((elapsedOf [(Event.tick 3 : Event String)] : Nat) : Int) < 5 ∧
      (run ([] : List (Event String))).nextId ∉
        (run ([] ++ Event.add "abc123" "first" 5 :: [Event.tick 3]
          ++ Event.add "abc123" "second" 10 :: [Event.tick 9])).fired ∧
      getTemporaryRecord
        (run ([] ++ Event.add "abc123" "first" 5 :: [Event.tick 3]
          ++ Event.add "abc123" "second" 10 :: [Event.tick 9])) "abc123" = some "second" :=
  have h := readd_resets_clock ([] : List (Event String)) [Event.tick 3] [Event.tick 9]
    "abc123" "first" "second" 5 10 (by decide) (by decide) (by decide)
  ⟨by decide, by decide, by decide, h.2.1, (h.2.2 (by decide)).trans (by decide)⟩

/-! ## The store: read after add (C3) -/

/-- C3: in every store state, for every token, record and TTL (positive or
not), a read made right after `addTemporaryRecord(token, record, ttlMs)`
returns exactly that record, whatever the token held before. -/
theorem getTemporaryRecord_addTemporaryRecord {ρ : Type} (s : Store ρ) (token : String)
    (record : ρ) (ttlMs : Int) :
    getTemporaryRecord (addTemporaryRecord s token record ttlMs) token = some record := by
  simp [getTemporaryRecord, add_sessions, mapGet_mapSet]

/-! ## The store: remove (C4) -/

/-- C4: `removeTemporaryRecord` is a total function of the store and the
token. In every store state a read of the token right after its removal
returns null; when `sessions.has(token)` is false the store is returned
unchanged; and in a reachable store the timer of the removed entry, being
cancelled, never runs, whatever events follow. -/
theorem removeTemporaryRecord_spec {ρ : Type} (s : Store ρ) (token : String) :
    getTemporaryRecord (removeTemporaryRecord s token) token = none ∧
      (mapHas s.sessions token = false → removeTemporaryRecord s token = s) ∧
      (∀ (pre post : List (Event ρ)) (entry : Entry ρ), s = run pre →
        mapGet s.sessions token = some entry →
        entry.timeoutId ∉ (runFrom (removeTemporaryRecord s token) post).fired) := by
  refine ⟨?_, ?_, ?_⟩
  · simp [getTemporaryRecord, mapGet_remove]
  · intro h
    unfold removeTemporaryRecord
    cases hg : mapGet s.sessions token with
    | none => rfl
    | some e => simp [mapHas, hg] at h
  · intro pre post entry hs hentry
    have hinv : Inv s pre.reverse := by rw [hs]; exact Inv.run pre
    obtain ⟨t, ht, htid, _⟩ := hinv.entryOk token entry hentry
    have hdead : Dead entry.timeoutId (removeTemporaryRecord s token) := by
      refine ⟨?_, ?_, ?_⟩
      · rw [remove_nextId, ← htid]; exact hinv.idLt t ht
      · rw [remove_fired]
        intro hc
        exact hinv.firedGone _ hc t ht htid
      · intro u hu hid
        exact ((mem_remove_timers _ _ _).mp hu).2 entry hentry hid
    exact (Dead.runFrom_dead post hdead).2.1

/-- C4 at a concrete store: "abc123" is added for 3 hours and removed 1 s
later; the read returns null, and the cancelled timer has not run when the
token is added again and 4 hours have passed. -/
theorem removeTemporaryRecord_spec_witness :
    getTemporaryRecord (removeTemporaryRecord
        (run [Event.add "abc123" "movie" 10800000, Event.tick 1000]) "abc123") "abc123" = none ∧
      0 ∉ (runFrom (removeTemporaryRecord
        (run [Event.add "abc123" "movie" 10800000, Event.tick 1000]) "abc123")
        [Event.add "abc123" "series" 10800000, Event.tick 14400000]).fired :=
  have h := removeTemporaryRecord_spec
    (run [Event.add "abc123" "movie" 10800000, Event.tick 1000]) "abc123"
  ⟨h.1, h.2.2 [Event.add "abc123" "movie" 10800000, Event.tick 1000]
    [Event.add "abc123" "series" 10800000, Event.tick 14400000]
    { record := "movie", timeoutId := 0 } rfl rfl⟩

/-! ## Keeping the best element of a list -/

theorem le_maxFrom {α ι : Type} [LinearOrder ι] (sc : α → ι) (l : List α) (m : ι) :
    m ≤ maxFrom sc l m := by
  induction l generalizing m with
  | nil => exact le_refl m
  | cons a rest ih => exact le_trans (le_max_left m (sc a)) (ih _)

theorem le_maxFrom_of_mem {α ι : Type} [LinearOrder ι] (sc : α → ι) (l : List α) (m : ι)
    (a : α) (ha : a ∈ l) : sc a ≤ maxFrom sc l m := by
  induction l generalizing m with
  | nil => cases ha
  | cons b rest ih =>
    rcases List.mem_cons.mp ha with rfl | h
    · exact le_trans (le_max_right m (sc a)) (le_maxFrom sc rest _)
    · exact ih _ h

theorem maxFrom_eq_or_mem {α ι : Type} [LinearOrder ι] (sc : α → ι) (l : List α) (m : ι) :
    maxFrom sc l m = m ∨ ∃ a ∈ l, sc a = maxFrom sc l m := by
  induction l generalizing m with
  | nil => exact Or.inl rfl
  | cons b rest ih =>
    rcases ih (max m (sc b)) with h | ⟨a, ha, hs⟩
    · rcases max_choice m (sc b) with hm | hm
      · left
        rw [hm] at h
        simpa only [maxFrom, hm] using h
      · right
        rw [hm] at h
        exact ⟨b, List.mem_cons_self _ _, by simpa only [maxFrom, hm] using h.symm⟩
    · right
      exact ⟨a, List.mem_cons_of_mem _ ha, hs⟩

theorem find?_congr_mem {α : Type} (l : List α) (p q : α → Bool)
    (h : ∀ a ∈ l, p a = q a) : l.find? p = l.find? q := by
  induction l with
  | nil => rfl
  | cons a rest ih =>
    simp only [List.find?_cons, h a (List.mem_cons_self _ _)]
    rw [ih (fun b hb => h b (List.mem_cons_of_mem _ hb))]

/-- The "keep the best so far" loop leaves the state alone when no score
exceeds the kept one, and otherwise ends with the first element whose score
is the largest. -/
theorem foldl_keepBest {α γ ι : Type} [LinearOrder ι] (inj : α → γ) (sc : α → ι)
    (l : List α) (c : γ) (m : ι) :
    (maxFrom sc l m = m → l.foldl (keepBest inj sc) (c, m) = (c, m)) ∧
    (m < maxFrom sc l m → ∃ x,
      l.find? (fun a => decide (sc a = maxFrom sc l m)) = some x ∧
      l.foldl (keepBest inj sc) (c, m) = (inj x, maxFrom sc l m)) := by
  induction l generalizing c m with
  | nil =>
    refine ⟨fun _ => rfl, fun h => ?_⟩
    simp [maxFrom] at h
  | cons a rest ih =>
    simp only [List.foldl_cons, maxFrom, List.find?_cons]
    by_cases hlt : m < sc a
    · have hmax : max m (sc a) = sc a := max_eq_right (le_of_lt hlt)
      have hk : keepBest inj sc (c, m) a = (inj a, sc a) := by simp [keepBest, hlt]
      simp only [hmax, hk]
      have hle := le_maxFrom sc rest (sc a)
      constructor
      · intro h
        rw [h] at hle
        exact absurd hlt (not_lt_of_le hle)
      · intro _
        rcases eq_or_lt_of_le hle with heq | hlt2
        · refine ⟨a, ?_, ?_⟩
          · simp [← heq]
          · rw [(ih (inj a) (sc a)).1 heq.symm, ← heq]
        · obtain ⟨x, hx1, hx2⟩ := (ih (inj a) (sc a)).2 hlt2
          refine ⟨x, ?_, hx2⟩
          have : decide (sc a = maxFrom sc rest (sc a)) = false := by
            simp [ne_of_lt hlt2]
          rw [this]
          exact hx1
    · have hle : sc a ≤ m := le_of_not_lt hlt
      have hmax : max m (sc a) = m := max_eq_left hle
      have hk : keepBest inj sc (c, m) a = (c, m) := by simp [keepBest, hlt]
      simp only [hmax, hk]
      constructor
      · exact (ih c m).1
      · intro h
        obtain ⟨x, hx1, hx2⟩ := (ih c m).2 h
        refine ⟨x, ?_, hx2⟩
        have : decide (sc a = maxFrom sc rest m) = false := by
          simp [ne_of_lt (lt_of_le_of_lt hle h)]
        rw [this]
        exact hx1

/-! ## providers.js: the loops of `pickBestStream` -/

theorem highestLoop_eq (keys : List String) (best : Nat) :
    highestLoop keys best = max best ((keys.map resolutionScore).foldr max 0) := by
  induction keys generalizing best with
  | nil => simp [highestLoop]
  | cons k rest ih =>
    simp only [highestLoop, List.map_cons, List.foldr_cons]
    split
    · rw [ih]; omega
    · rw [ih]; omega

theorem getProp_of_not_nullish (v : JsVal) (k : String) (h : v.isNullish = false) :
    ∃ w, v.getProp k = .ok w := by
  cases v with
  | undefined => simp [JsVal.isNullish] at h
  | null => simp [JsVal.isNullish] at h
  | bool b => exact ⟨_, rfl⟩
  | num n => exact ⟨_, rfl⟩
  | str s => exact ⟨_, rfl⟩
  | arr items => exact ⟨_, rfl⟩
  | obj fields =>
    cases hm : mapGet fields k with
    | none => exact ⟨.undefined, by simp [JsVal.getProp, hm]⟩
    | some w => exact ⟨w, by simp [JsVal.getProp, hm]⟩

/-- The quality score computed by the code is the file score of the rule. -/
theorem getHighestFileResolution_eq (stream q : JsVal)
    (hq : stream.getProp "qualities" = .ok q) (hnull : q ≠ JsVal.null) :
    getHighestFileResolution q = .ok (fileScore stream) := by
  unfold fileScore qualityKeys
  rw [hq]
  cases q with
  | null => exact absurd rfl hnull
  | undefined => simp [getHighestFileResolution, objectKeys, highestLoop, bind, Except.bind]
  | bool b => simp [getHighestFileResolution, objectKeys, highestLoop, bind, Except.bind]
  | num n => simp [getHighestFileResolution, objectKeys, highestLoop, bind, Except.bind]
  | str t =>
    simp [getHighestFileResolution, objectKeys, highestLoop_eq, bind, Except.bind]
  | arr items =>
    simp [getHighestFileResolution, objectKeys, highestLoop_eq, bind, Except.bind]
  | obj fields =>
    simp [getHighestFileResolution, objectKeys, highestLoop_eq, bind, Except.bind]

/-- On a well-formed stream the loop body is one round of "keep the best so
far" under `streamScore`, and throws nothing. -/
theorem considerStream_eq (st : JsVal × Nat) (stream : JsVal)
    (h : wellFormedStream stream = true) :
    considerStream st stream = .ok (keepBest id streamScore st stream) := by
  simp only [wellFormedStream, Bool.and_eq_true, Bool.not_eq_true'] at h
  obtain ⟨hnn, hq⟩ := h
  obtain ⟨ty, hty⟩ := getProp_of_not_nullish stream "type" hnn
  obtain ⟨q, hqq⟩ := getProp_of_not_nullish stream "qualities" hnn
  have hT : ∀ t, hasType stream t = ty.isStr t := by intro t; simp [hasType, hty]
  unfold considerStream keepBest streamScore
  simp only [hty, hT, bind, Except.bind, id]
  by_cases hh : ty.isStr "hls" = true
  · simp only [hh, if_true]
    by_cases hc : st.2 < 9999
    · simp [hc]
    · simp [hc]
  · simp only [hh]
    by_cases hf : ty.isStr "file" = true
    · have hnull : q ≠ JsVal.null := by
        intro hx
        rw [hT, hf, hqq, hx] at hq
        simp at hq
      rw [hqq]
      simp only [hf, if_true, getHighestFileResolution_eq stream q hqq hnull]
      by_cases hc : st.2 < fileScore stream
      · simp [hc]
      · simp [hc]
    · simp [hf]

theorem scanStreams_eq (l : List JsVal) (st : JsVal × Nat)
    (h : ∀ s ∈ l, wellFormedStream s = true) :
    scanStreams l st = .ok (l.foldl (keepBest id streamScore) st) := by
  induction l generalizing st with
  | nil => rfl
  | cons a rest ih =>
    simp only [scanStreams, considerStream_eq st a (h a (List.mem_cons_self _ _)), bind,
      Except.bind, List.foldl_cons]
    exact ih _ (fun s hs => h s (List.mem_cons_of_mem _ hs))

theorem scanStreams_append (a b : List JsVal) (st : JsVal × Nat) :
    scanStreams (a ++ b) st = (scanStreams a st).bind (scanStreams b) := by
  induction a generalizing st with
  | nil => rfl
  | cons x rest ih =>
    simp only [List.cons_append, scanStreams, bind]
    cases considerStream st x with
    | error e => rfl
    | ok st' => simp only [Except.bind]; exact ih st'

/-- The two nested loops visit the streams of `allStreams`, in that order. -/
theorem scanProviders_eq (ps : List JsVal) (st : JsVal × Nat)
    (h : ∀ p ∈ ps, p.isNullish = false) :
    scanProviders ps st = scanStreams (allStreams ps) st := by
  induction ps generalizing st with
  | nil => rfl
  | cons p rest ih =>
    have hrest : ∀ q ∈ rest, q.isNullish = false := fun q hq => h q (List.mem_cons_of_mem _ hq)
    obtain ⟨v, hv⟩ := getProp_of_not_nullish p "streams" (h p (List.mem_cons_self _ _))
    cases v with
    | arr items =>
      simp only [scanProviders, allStreams, hv, bind, Except.bind, JsVal.truthy, JsVal.isArray,
        Bool.not_true, Bool.or_self, Bool.false_eq_true, if_false, scanStreams_append]
      cases scanStreams items st with
      | error e => rfl
      | ok st' => exact ih st' hrest
    | undefined =>
      simp [scanProviders, allStreams, hv, bind, Except.bind, JsVal.truthy, JsVal.isArray,
        ih st hrest]
    | null =>
      simp [scanProviders, allStreams, hv, bind, Except.bind, JsVal.truthy, JsVal.isArray,
        ih st hrest]
    | bool b =>
      simp [scanProviders, allStreams, hv, bind, Except.bind, JsVal.truthy, JsVal.isArray,
        ih st hrest]
    | num n =>
      simp [scanProviders, allStreams, hv, bind, Except.bind, JsVal.truthy, JsVal.isArray,
        ih st hrest]
    | str t =>
      simp [scanProviders, allStreams, hv, bind, Except.bind, JsVal.truthy, JsVal.isArray,
        ih st hrest]
    | obj fields =>
      simp [scanProviders, allStreams, hv, bind, Except.bind, JsVal.truthy, JsVal.isArray,
        ih st hrest]

/-- On a normalized list `pickBestStream` throws nothing and returns what the
"keep the best so far" loop over all streams ends with. -/
theorem pickBestStream_eq (ps : List JsVal) (h : wellFormed ps = true) :
    pickBestStream ps
      = .ok ((allStreams ps).foldl (keepBest id streamScore) (JsVal.null, 0)).1 := by
  simp only [wellFormed, Bool.and_eq_true, List.all_eq_true, Bool.not_eq_true'] at h
  unfold pickBestStream
  rw [scanProviders_eq ps _ h.1, scanStreams_eq _ _ h.2]
  rfl

theorem resolutionScore_le (k : String) : resolutionScore k ≤ 4000 := by
  unfold resolutionScore
  split_ifs <;> omega

theorem resolutionScore_pos (k : String) (h : k ∈ recognizedLabels) : 0 < resolutionScore k := by
  simp only [recognizedLabels, List.mem_cons, List.mem_singleton, List.not_mem_nil,
    or_false] at h
  rcases h with rfl | rfl | rfl | rfl | rfl <;> decide

theorem foldr_max_le (l : List Nat) (b : Nat) (h : ∀ x ∈ l, x ≤ b) : l.foldr max 0 ≤ b := by
  induction l with
  | nil => exact Nat.zero_le b
  | cons a rest ih =>
    simp only [List.foldr_cons]
    exact max_le (h a (List.mem_cons_self _ _)) (ih (fun x hx => h x (List.mem_cons_of_mem _ hx)))

theorem le_foldr_max (l : List Nat) (x : Nat) (h : x ∈ l) : x ≤ l.foldr max 0 := by
  induction l with
  | nil => cases h
  | cons a rest ih =>
    simp only [List.foldr_cons]
    rcases List.mem_cons.mp h with rfl | h'
    · exact le_max_left _ _
    · exact le_trans (ih h') (le_max_right _ _)

theorem fileScore_le (stream : JsVal) : fileScore stream ≤ 4000 := by
  unfold fileScore
  apply foldr_max_le
  intro x hx
  obtain ⟨k, _, rfl⟩ := List.mem_map.mp hx
  exact resolutionScore_le k

theorem fileScore_pos (stream : JsVal) (k : String) (hk : k ∈ qualityKeys stream)
    (hr : k ∈ recognizedLabels) : 0 < fileScore stream := by
  unfold fileScore
  exact lt_of_lt_of_le (resolutionScore_pos k hr)
    (le_foldr_max _ _ (List.mem_map.mpr ⟨k, hk, rfl⟩))

theorem hasType_hls_of_file (stream : JsVal) (h : hasType stream "file" = true) :
    hasType stream "hls" = false := by
  unfold hasType at h ⊢
  cases hg : stream.getProp "type" with
  | error e => rfl
  | ok v =>
    rw [hg] at h
    cases v with
    | str t =>
      simp only [JsVal.isStr, decide_eq_true_eq] at h
      subst h
      simp only [JsVal.isStr]
      decide
    | undefined => simp [JsVal.isStr] at h
    | null => simp [JsVal.isStr] at h
    | bool b => simp [JsVal.isStr] at h
    | num n => simp [JsVal.isStr] at h
    | arr items => simp [JsVal.isStr] at h
    | obj fields => simp [JsVal.isStr] at h

theorem streamScore_le (stream : JsVal) : streamScore stream ≤ 9999 := by
  unfold streamScore
  split_ifs
  · exact le_refl _
  · exact le_trans (fileScore_le stream) (by decide)
  · exact Nat.zero_le _

theorem streamScore_eq_9999_iff (stream : JsVal) :
    streamScore stream = 9999 ↔ hasType stream "hls" = true := by
  unfold streamScore
  constructor
  · intro h
    split_ifs at h with h1 h2
    · exact h1
    · have := fileScore_le stream
      omega
  · intro h
    rw [if_pos h]

/-- When no stream has a positive score, nothing is chosen. -/
theorem pickBestStream_null_of_scores_zero (ps : List JsVal) (h : wellFormed ps = true)
    (hz : ∀ s ∈ allStreams ps, streamScore s = 0) : pickBestStream ps = .ok .null := by
  rw [pickBestStream_eq ps h]
  have hm : maxFrom streamScore (allStreams ps) 0 = 0 := by
    rcases maxFrom_eq_or_mem streamScore (allStreams ps) 0 with h0 | ⟨a, ha, hs⟩
    · exact h0
    · rw [← hs]; exact hz a ha
  rw [(foldl_keepBest id streamScore (allStreams ps) JsVal.null 0).1 hm]

/-- When some stream has a positive score, the first stream with the largest
score is chosen. -/
theorem pickBestStream_of_score_pos (ps : List JsVal) (h : wellFormed ps = true)
    (s : JsVal) (hs : s ∈ allStreams ps) (hpos : 0 < streamScore s) :
    ∃ x, (allStreams ps).find?
        (fun a => decide (streamScore a = maxFrom streamScore (allStreams ps) 0)) = some x ∧
      pickBestStream ps = .ok x := by
  rw [pickBestStream_eq ps h]
  have hm : 0 < maxFrom streamScore (allStreams ps) 0 :=
    lt_of_lt_of_le hpos (le_maxFrom_of_mem streamScore _ 0 s hs)
  obtain ⟨x, hx1, hx2⟩ := (foldl_keepBest id streamScore (allStreams ps) JsVal.null 0).2 hm
  exact ⟨x, hx1, by rw [hx2]; rfl⟩

/-! ## providers.js: a streaming manifest outranks every file (C5) -/

/-- C5: for every normalized list of provider results in which some
provider's `streams` array holds a stream of type "hls", `pickBestStream`
throws nothing and returns a stream of type "hls", namely the first one in
provider-then-stream order, whatever file-based streams are present, whatever
their qualities and wherever they stand. -/
theorem pickBestStream_prefers_hls (providerOutputs : List JsVal)
    (hwf : wellFormed providerOutputs = true)
    (hhls : ∃ s ∈ allStreams providerOutputs, hasType s "hls" = true) :
    ∃ s, pickBestStream providerOutputs = .ok s ∧ hasType s "hls" = true ∧
      (allStreams providerOutputs).find? (fun a => hasType a "hls") = some s := by
  obtain ⟨h, hh, hty⟩ := hhls
  have hsc : streamScore h = 9999 := (streamScore_eq_9999_iff h).mpr hty
  have hmax : maxFrom streamScore (allStreams providerOutputs) 0 = 9999 := by
    apply le_antisymm
    · rcases maxFrom_eq_or_mem streamScore (allStreams providerOutputs) 0 with h0 | ⟨a, _, ha⟩
      · rw [h0]; decide
      · rw [← ha]; exact streamScore_le a
    · rw [← hsc]; exact le_maxFrom_of_mem streamScore _ 0 h hh
  obtain ⟨x, hx1, hx2⟩ :=
    pickBestStream_of_score_pos providerOutputs hwf h hh (by rw [hsc]; decide)
  rw [hmax] at hx1
  have hcong : (allStreams providerOutputs).find? (fun a => decide (streamScore a = 9999))
      = (allStreams providerOutputs).find? (fun a => hasType a "hls") := by
    apply find?_congr_mem
    intro a _
    by_cases hc : hasType a "hls" = true
    · simp [hc, (streamScore_eq_9999_iff a).mpr hc]
    · have : streamScore a ≠ 9999 := fun hne => hc ((streamScore_eq_9999_iff a).mp hne)
      simp [hc, this]
  rw [hcong] at hx1
  refine ⟨x, hx2, ?_, hx1⟩
  have := List.find?_some hx1
  exact this

/-- C5 at a concrete list: the 4k file of the first provider and the 1080 file
standing before it do not keep the first manifest from being chosen. -/
theorem pickBestStream_prefers_hls_witness :
    wellFormed fileThenHls = true ∧
      ∃ s, pickBestStream fileThenHls = .ok s ∧ hasType s "hls" = true ∧
        (allStreams fileThenHls).find? (fun a => hasType a "hls") = some s :=
  ⟨by decide,
   pickBestStream_prefers_hls fileThenHls (by decide)
    ⟨.obj [("type", .str "hls"), ("playlist", .str "first.m3u8"), ("captions", .arr [])],
      by simp [fileThenHls, allStreams, JsVal.getProp, mapGet], by decide⟩⟩

/-! ## providers.js: ranking of file-based streams (C6) -/

/-- C6: for every normalized list of provider results whose streams are all
file-based and one of which offers a recognized quality label, `pickBestStream`
throws nothing and returns the first stream, in iteration order, whose file
score is at least the file score of every stream of the list; the score that
the code computes for a stream is its file score. A later stream with the same
score therefore never replaces an earlier one. -/
theorem pickBestStream_files (providerOutputs : List JsVal)
    (hwf : wellFormed providerOutputs = true)
    (hfile : ∀ s ∈ allStreams providerOutputs, hasType s "file" = true)
    (hrec : ∃ s ∈ allStreams providerOutputs, ∃ k ∈ qualityKeys s, k ∈ recognizedLabels) :
    (∀ s ∈ allStreams providerOutputs, ∀ q, s.getProp "qualities" = .ok q →
        getHighestFileResolution q = .ok (fileScore s)) ∧
    ∃ s, pickBestStream providerOutputs = .ok s ∧
      (allStreams providerOutputs).find?
        (fun a => (allStreams providerOutputs).all (fun t => decide (fileScore t ≤ fileScore a)))
        = some s := by
  have hsc : ∀ s ∈ allStreams providerOutputs, streamScore s = fileScore s := by
    intro s hs
    unfold streamScore
    rw [if_neg (by rw [hasType_hls_of_file s (hfile s hs)]; simp), if_pos (hfile s hs)]
  constructor
  · intro s hs q hq
    apply getHighestFileResolution_eq s q hq
    intro hnull
    simp only [wellFormed, Bool.and_eq_true, List.all_eq_true] at hwf
    have := hwf.2 s hs
    simp [wellFormedStream, hfile s hs, hq, hnull] at this
  · obtain ⟨r, hr, k, hk, hkr⟩ := hrec
    obtain ⟨x, hx1, hx2⟩ := pickBestStream_of_score_pos providerOutputs hwf r hr
      (by rw [hsc r hr]; exact fileScore_pos r k hk hkr)
    refine ⟨x, hx2, ?_⟩
    rw [← hx1]
    apply find?_congr_mem
    intro a ha
    have hle := le_maxFrom_of_mem streamScore (allStreams providerOutputs) 0 a ha
    by_cases hc : streamScore a = maxFrom streamScore (allStreams providerOutputs) 0
    · have hall : (allStreams providerOutputs).all
          (fun t => decide (fileScore t ≤ fileScore a)) = true := by
        rw [List.all_eq_true]
        intro t ht
        have := le_maxFrom_of_mem streamScore (allStreams providerOutputs) 0 t ht
        rw [← hc, hsc t ht, hsc a ha] at this
        simpa using this
      simp [hc, hall]
    · have hall : (allStreams providerOutputs).all
          (fun t => decide (fileScore t ≤ fileScore a)) = false := by
        rw [Bool.eq_false_iff]
        intro hall
        rw [List.all_eq_true] at hall
        apply hc
        apply le_antisymm hle
        rcases maxFrom_eq_or_mem streamScore (allStreams providerOutputs) 0 with h0 | ⟨b, hb, hbs⟩
        · rw [h0]; exact Nat.zero_le _
        · rw [← hbs, hsc b hb, hsc a ha]
          simpa using hall b hb
      simp [hc, hall]

/-- C6 at a concrete list: of the streams offering 480, 4k and 360, and 4k,
the second is returned, not the third. -/
theorem pickBestStream_files_witness :
    wellFormed filesOnly = true ∧
      (∃ s, pickBestStream filesOnly = .ok s ∧
        (allStreams filesOnly).find?
          (fun a => (allStreams filesOnly).all (fun t => decide (fileScore t ≤ fileScore a)))
          = some s) ∧
      pickBestStream filesOnly = .ok (.obj [("type", .str "file"),
        ("qualities", .obj [("360", .obj [("url", .str "low")]),
                            ("4k", .obj [("url", .str "uhd-first")])])]) :=
  ⟨by decide,
   (pickBestStream_files filesOnly (by decide)
    (by simp [filesOnly, allStreams, JsVal.getProp, mapGet, hasType, JsVal.isStr])
    ⟨.obj [("type", .str "file"), ("qualities", .obj [("480", .obj [("url", .str "sd")])])],
      by simp [filesOnly, allStreams, JsVal.getProp, mapGet], "480",
      by simp [qualityKeys, JsVal.getProp, mapGet, objectKeys], by decide⟩).2,
   rfl⟩

/-! ## providers.js: when nothing is chosen (C7) -/

/-- C7 fails on the code: the list holds a stream of type "file", whose only
quality is `unknown`, and `pickBestStream` returns `null`. The score 0 of that
stream is not greater than the initial `chosenScore = 0`. -/
theorem pickBestStream_unknownQualityOnly :
    wellFormed unknownQualityOnly = true ∧
      (∃ s ∈ allStreams unknownQualityOnly, hasType s "file" = true) ∧
      pickBestStream unknownQualityOnly = .ok .null :=
  ⟨by decide,
   ⟨.obj [("type", .str "file"),
          ("qualities", .obj [("unknown",
             .obj [("type", .str "mp4"), ("url", .str "https://cdn/v.mp4")])]),
          ("captions", .arr [])],
     by simp [unknownQualityOnly, allStreams, JsVal.getProp, mapGet], by decide⟩,
   rfl⟩

/-! ## providers.js: degenerate inputs (C8) -/

theorem allStreams_nil_of_no_array (ps : List JsVal)
    (h : ∀ p ∈ ps, ∀ v, p.getProp "streams" = .ok v → v.isArray = false) :
    allStreams ps = [] := by
  induction ps with
  | nil => rfl
  | cons p rest ih =>
    have hrest := ih (fun q hq => h q (List.mem_cons_of_mem _ hq))
    have hp := h p (List.mem_cons_self _ _)
    unfold allStreams
    cases hg : p.getProp "streams" with
    | error e => simpa using hrest
    | ok v =>
      cases v with
      | arr items => simpa [JsVal.isArray] using hp _ hg
      | undefined => simpa using hrest
      | null => simpa using hrest
      | bool b => simpa using hrest
      | num n => simpa using hrest
      | str t => simpa using hrest
      | obj fields => simpa using hrest

theorem pickBestStream_null_of_no_candidates (ps : List JsVal)
    (hp : ∀ p ∈ ps, p.isNullish = false)
    (hs : ∀ s ∈ allStreams ps,
      s.isNullish = false ∧ hasType s "hls" = false ∧ hasType s "file" = false) :
    pickBestStream ps = .ok .null := by
  apply pickBestStream_null_of_scores_zero
  · simp only [wellFormed, Bool.and_eq_true, List.all_eq_true, Bool.not_eq_true']
    refine ⟨hp, fun s hmem => ?_⟩
    obtain ⟨h1, _, h3⟩ := hs s hmem
    simp [wellFormedStream, h1, h3]
  · intro s hmem
    obtain ⟨_, h2, h3⟩ := hs s hmem
    simp [streamScore, h2, h3]

theorem getProp_obj (fields : List (String × JsVal)) (k : String) :
    (JsVal.obj fields).getProp k = .ok ((mapGet fields k).getD .undefined) := by
  cases h : mapGet fields k <;> simp [JsVal.getProp, h]

/-- C8, as stated, fails on lists with an entry `null`: the list
`[{id: "a", streams: [null]}]` is a list whose providers' `streams` hold no
stream of type "hls" or "file", and so is `[null]`, yet
`pickBestStream(unifyProviderOutputs(x))` throws on both, reading `stream.type`
from `null` in the first and `provider.streams` from `null` in the second. -/
theorem unify_degenerate_counterexample :
    ((∀ s ∈ allStreams [.obj [("id", .str "a"), ("streams", .arr [.null])]],
        hasType s "hls" = false ∧ hasType s "file" = false) ∧
      ∃ e, (unifyProviderOutputs (.arr [.obj [("id", .str "a"), ("streams", .arr [.null])]])).bind
        pickBestStream = .error e) ∧
    ((∀ s ∈ allStreams [.null], hasType s "hls" = false ∧ hasType s "file" = false) ∧
      ∃ e, (unifyProviderOutputs (.arr [.null])).bind pickBestStream = .error e) := by
  refine ⟨⟨?_, _, rfl⟩, ⟨?_, _, rfl⟩⟩
  · intro s hs
    simp only [allStreams, JsVal.getProp, mapGet] at hs
    simp at hs
    subst hs
    exact ⟨rfl, rfl⟩
  · intro s hs
    simp [allStreams, JsVal.getProp] at hs

/-- C8 (amended): `pickBestStream(unifyProviderOutputs(x))` throws nothing and
is `null` when `x` is the empty list; when `x` is a list of providers, none of
them `null` or `undefined`, none of which has an array-valued `streams`; when
`x` is a list of providers, none of them `null` or `undefined`, whose `streams`
arrays hold only entries other than `null` and `undefined` and of a type other
than "hls" and "file"; and when `x` is a single object with neither a `stream`
nor a `streams` field. -/
theorem pickBestStream_unify_degenerate :
    (unifyProviderOutputs (.arr [])).bind pickBestStream = .ok .null ∧
    (∀ ps : List JsVal,
      (∀ p ∈ ps, p.isNullish = false ∧ ∀ v, p.getProp "streams" = .ok v → v.isArray = false) →
      (unifyProviderOutputs (.arr ps)).bind pickBestStream = .ok .null) ∧
    (∀ ps : List JsVal, (∀ p ∈ ps, p.isNullish = false) →
      (∀ s ∈ allStreams ps,
        s.isNullish = false ∧ hasType s "hls" = false ∧ hasType s "file" = false) →
      (unifyProviderOutputs (.arr ps)).bind pickBestStream = .ok .null) ∧
    (∀ fields : List (String × JsVal),
      mapGet fields "stream" = none → mapGet fields "streams" = none →
      (unifyProviderOutputs (.obj fields)).bind pickBestStream = .ok .null) := by
  have harr : ∀ ps : List JsVal, unifyProviderOutputs (.arr ps) = .ok ps := by
    intro ps
    simp [unifyProviderOutputs, JsVal.truthy]
  refine ⟨rfl, ?_, ?_, ?_⟩
  · intro ps h
    rw [harr]
    simp only [Except.bind]
    apply pickBestStream_null_of_no_candidates ps (fun p hp => (h p hp).1)
    rw [allStreams_nil_of_no_array ps (fun p hp => (h p hp).2)]
    intro s hs
    cases hs
  · intro ps hp hs
    rw [harr]
    simp only [Except.bind]
    exact pickBestStream_null_of_no_candidates ps hp hs
  · intro fields h1 h2
    have : unifyProviderOutputs (.obj fields) = .ok [] := by
      simp [unifyProviderOutputs, JsVal.truthy, getProp_obj, h1, h2, bind, Except.bind]
    rw [this]
    rfl

/-- C8 (amended) at concrete inputs: a provider without `streams`, a provider whose only
stream has type "dash", and an object holding an `error` field only. -/
theorem pickBestStream_unify_degenerate_witness :
    (unifyProviderOutputs (.arr [.obj [("id", .str "a"), ("name", .str "A")]])).bind
        pickBestStream = .ok .null ∧
    (unifyProviderOutputs (.arr [.obj [("id", .str "a"),
        ("streams", .arr [.obj [("type", .str "dash"), ("url", .str "u")]])]])).bind
        pickBestStream = .ok .null ∧
    (unifyProviderOutputs (.obj [("error", .str "not found")])).bind pickBestStream
        = .ok .null :=
  ⟨pickBestStream_unify_degenerate.2.1 [.obj [("id", .str "a"), ("name", .str "A")]]
     (by simp [JsVal.isNullish, JsVal.getProp, mapGet, JsVal.isArray]),
   pickBestStream_unify_degenerate.2.2.1
     [.obj [("id", .str "a"), ("streams", .arr [.obj [("type", .str "dash"), ("url", .str "u")]])]]
     (by simp [JsVal.isNullish])
     (by simp [allStreams, JsVal.getProp, mapGet, JsVal.isNullish, hasType, JsVal.isStr]),
   pickBestStream_unify_degenerate.2.2.2 [("error", .str "not found")] rfl rfl⟩

/-! ## providers.js: normalization (C9) -/

/-- C9: for every input, `unifyProviderOutputs` throws nothing and returns
what the rule says: an array as it is, one wrapped provider for a non-array
object with a truthy `stream`, the object alone when it has no truthy `stream`
but a truthy `streams`, and the empty list in every other case. -/
theorem unifyProviderOutputs_eq_unifySpec (providerOutputs : JsVal) :
    unifyProviderOutputs providerOutputs = .ok (unifySpec providerOutputs) := by
  cases providerOutputs with
  | undefined => rfl
  | null => rfl
  | bool b => cases b <;> rfl
  | num n =>
    by_cases hn : n = 0
    · simp [unifyProviderOutputs, unifySpec, JsVal.truthy, hn]
    · simp [unifyProviderOutputs, unifySpec, JsVal.truthy, hn, JsVal.getProp, bind, Except.bind]
  | str t =>
    by_cases ht : t = ""
    · simp [unifyProviderOutputs, unifySpec, JsVal.truthy, ht]
    · simp [unifyProviderOutputs, unifySpec, JsVal.truthy, ht, JsVal.getProp, bind, Except.bind]
  | arr items => simp [unifyProviderOutputs, unifySpec, JsVal.truthy]
  | obj fields =>
    have ht : (JsVal.obj fields).truthy = true := rfl
    simp only [unifyProviderOutputs, unifySpec, ht, getProp_obj, bind, Except.bind,
      Bool.not_true, Bool.false_eq_true, if_false]
    by_cases h1 : ((mapGet fields "stream").getD JsVal.undefined).truthy = true
    · simp [h1]
    · by_cases h2 : ((mapGet fields "streams").getD JsVal.undefined).truthy = true
      · simp [h1, h2]
      · simp [h1, h2]

/-! ## backup.js: the chosen candidate has the best priority (C10) -/

theorem torrentLoop_eq (toLowerCase : String → String) (l : List TorrentStream)
    (st : Option TorrentStream × Int) :
    torrentLoop toLowerCase l st = l.foldl (keepBest some (torrentRank toLowerCase)) st := by
  induction l generalizing st with
  | nil => rfl
  | cons a rest ih =>
    simp only [torrentLoop, List.foldl_cons, keepBest, gt_iff_lt]
    split <;> exact ih _

theorem firstMatch_lt (p : String → Bool) (l : List String) (k : Nat)
    (h : firstMatch p l = some k) : k < l.length := by
  induction l generalizing k with
  | nil => simp [firstMatch] at h
  | cons r rest ih =>
    simp only [firstMatch] at h
    split at h
    · cases h; simp
    · cases hr : firstMatch p rest with
      | none => rw [hr] at h; cases h
      | some j =>
        rw [hr] at h
        cases h
        have := ih j hr
        simp only [List.length_cons]
        omega

theorem rankLoop_eq (toLowerCase : String → String) (s : TorrentStream) (l : List String)
    (i : Nat) :
    rankLoop toLowerCase s l i =
      match firstMatch (matchesRes toLowerCase s) l with
      | some k => (resolutionRanking.length : Int) - ((i + k : Nat) : Int)
      | none => -1 := by
  induction l generalizing i with
  | nil => rfl
  | cons r rest ih =>
    simp only [rankLoop, firstMatch]
    split
    · simp
    · rw [ih (i + 1)]
      cases firstMatch (matchesRes toLowerCase s) rest with
      | none => rfl
      | some j =>
        simp only [Option.map_some']
        congr 2
        omega

/-- The rank of the code in terms of the priority of the rule. -/
theorem torrentRank_eq (toLowerCase : String → String) (s : TorrentStream) :
    torrentRank toLowerCase s =
      match priority toLowerCase s with
      | some k => 6 - (k : Int)
      | none => -1 := by
  unfold torrentRank priority
  rw [rankLoop_eq]
  cases firstMatch (matchesRes toLowerCase s) resolutionRanking with
  | none => rfl
  | some k => simp [resolutionRanking]

theorem priority_lt (toLowerCase : String → String) (s : TorrentStream) (k : Nat)
    (h : priority toLowerCase s = some k) : k < 6 := by
  have := firstMatch_lt _ _ _ h
  simpa [resolutionRanking] using this

theorem torrentRank_ge (toLowerCase : String → String) (s : TorrentStream) :
    -1 ≤ torrentRank toLowerCase s := by
  rw [torrentRank_eq]
  cases h : priority toLowerCase s with
  | none => simp
  | some k =>
    have := priority_lt toLowerCase s k h
    show (-1 : Int) ≤ 6 - (k : Int)
    omega

/-- On a non-empty array the candidate returned is the first one whose rank is
the largest. -/
theorem pickBestTorrentStream_first_max (toLowerCase : String → String)
    (streams : List TorrentStream) (hne : streams ≠ []) :
    ∃ c, pickBestTorrentStream toLowerCase streams = some c ∧
      streams.find? (fun a => decide (torrentRank toLowerCase a
        = maxFrom (torrentRank toLowerCase) streams (-9999))) = some c := by
  obtain ⟨a, rest, rfl⟩ := List.exists_cons_of_ne_nil hne
  have hlt : (-9999 : Int) < maxFrom (torrentRank toLowerCase) (a :: rest) (-9999) := by
    have h1 := le_maxFrom_of_mem (torrentRank toLowerCase) (a :: rest) (-9999) a
      (List.mem_cons_self _ _)
    have h2 := torrentRank_ge toLowerCase a
    omega
  obtain ⟨x, hx1, hx2⟩ :=
    (foldl_keepBest some (torrentRank toLowerCase) (a :: rest) none (-9999)).2 hlt
  refine ⟨x, ?_, hx1⟩
  unfold pickBestTorrentStream
  rw [if_neg (by simp), torrentLoop_eq, hx2]

/-- C10: for every non-empty array of torrent candidates,
`pickBestTorrentStream` returns one of the candidates, and its priority is the
best of the array: whenever a candidate of the array matches the token at
position `i` of [2160p, 4k, 1080p, 720p, 480p, 360p] first, the returned one
matches a token at a position `j ≤ i`; so a candidate that matches no token is
returned only if no candidate of the array matches any token. -/
theorem pickBestTorrentStream_priority (toLowerCase : String → String)
    (streams : List TorrentStream) (hne : streams ≠ []) :
    ∃ c, pickBestTorrentStream toLowerCase streams = some c ∧ c ∈ streams ∧
      (∀ s ∈ streams, ∀ i, priority toLowerCase s = some i →
        ∃ j, priority toLowerCase c = some j ∧ j ≤ i) ∧
      (priority toLowerCase c = none → ∀ s ∈ streams, priority toLowerCase s = none) := by
  obtain ⟨c, hc, hfind⟩ := pickBestTorrentStream_first_max toLowerCase streams hne
  have hmem : c ∈ streams := List.mem_of_find?_eq_some hfind
  have hmax : torrentRank toLowerCase c
      = maxFrom (torrentRank toLowerCase) streams (-9999) := by
    simpa using List.find?_some hfind
  have hbest : ∀ s ∈ streams, ∀ i, priority toLowerCase s = some i →
      ∃ j, priority toLowerCase c = some j ∧ j ≤ i := by
    intro s hs i hi
    have hle := le_maxFrom_of_mem (torrentRank toLowerCase) streams (-9999) s hs
    rw [← hmax, torrentRank_eq toLowerCase s, torrentRank_eq toLowerCase c, hi] at hle
    have hi6 := priority_lt toLowerCase s i hi
    cases hj : priority toLowerCase c with
    | none =>
      rw [hj] at hle
      have hle' : (6 : Int) - (i : Int) ≤ -1 := hle
      omega
    | some j =>
      rw [hj] at hle
      have hle' : (6 : Int) - (i : Int) ≤ 6 - (j : Int) := hle
      exact ⟨j, rfl, by omega⟩
  refine ⟨c, hc, hmem, hbest, ?_⟩
  intro hnone s hs
  cases hp : priority toLowerCase s with
  | none => rfl
  | some i =>
    obtain ⟨j, hj, _⟩ := hbest s hs i hp
    rw [hnone] at hj
    cases hj

/-- C10 at a concrete array: among a candidate without token, one with 720P
and two with 1080p, a candidate with 1080p (position 2) is returned. -/
theorem pickBestTorrentStream_priority_witness :
    sampleTorrents ≠ [] ∧
      (∃ c, pickBestTorrentStream asciiLower sampleTorrents = some c ∧ c ∈ sampleTorrents ∧
        (∀ s ∈ sampleTorrents, ∀ i, priority asciiLower s = some i →
          ∃ j, priority asciiLower c = some j ∧ j ≤ i) ∧
        (priority asciiLower c = none → ∀ s ∈ sampleTorrents, priority asciiLower s = none)) ∧
      pickBestTorrentStream asciiLower sampleTorrents
        = some { title := some "Big.Buck.Bunny.1080P.WEB", name := some "Torrentio",
                 infoHash := "cc" } :=
  ⟨by decide, pickBestTorrentStream_priority asciiLower sampleTorrents (by decide), by decide⟩

/-- Outside the normalized lists: an element `null` in a `streams` array makes
`pickBestStream` throw, as `stream.type` is read from it. -/
theorem pickBestStream_throws_on_null_stream :
    ∃ e, pickBestStream [.obj [("id", .str "a"), ("streams", .arr [.null])]] = .error e :=
  ⟨_, rfl⟩

/-! ## backup.js: the first of the best candidates is kept (C11) -/

/-- C11: for every non-empty array of torrent candidates,
`pickBestTorrentStream` returns the first candidate, in input order, whose
rank is at least the rank of every candidate of the array, so that a later
candidate with the same rank never displaces it; and when no candidate matches
a resolution token, it returns the very first candidate of the array. -/
theorem pickBestTorrentStream_first_wins (toLowerCase : String → String)
    (streams : List TorrentStream) (hne : streams ≠ []) :
    ∃ c, pickBestTorrentStream toLowerCase streams = some c ∧
      streams.find? (fun a => streams.all
        (fun t => decide (torrentRank toLowerCase t ≤ torrentRank toLowerCase a))) = some c ∧
      ((∀ s ∈ streams, priority toLowerCase s = none) → streams.head? = some c) := by
  obtain ⟨c, hc, hfind⟩ := pickBestTorrentStream_first_max toLowerCase streams hne
  have hfirst : streams.find? (fun a => streams.all
      (fun t => decide (torrentRank toLowerCase t ≤ torrentRank toLowerCase a))) = some c := by
    rw [← hfind]
    apply find?_congr_mem
    intro a ha
    have hle := le_maxFrom_of_mem (torrentRank toLowerCase) streams (-9999) a ha
    by_cases hmax : torrentRank toLowerCase a
        = maxFrom (torrentRank toLowerCase) streams (-9999)
    · have hall : streams.all
          (fun t => decide (torrentRank toLowerCase t ≤ torrentRank toLowerCase a)) = true := by
        rw [List.all_eq_true]
        intro t ht
        have := le_maxFrom_of_mem (torrentRank toLowerCase) streams (-9999) t ht
        rw [← hmax] at this
        simpa using this
      rw [hall, decide_eq_true hmax]
    · have hall : streams.all
          (fun t => decide (torrentRank toLowerCase t ≤ torrentRank toLowerCase a)) = false := by
        rw [Bool.eq_false_iff]
        intro hall
        rw [List.all_eq_true] at hall
        apply hmax
        apply le_antisymm hle
        rcases maxFrom_eq_or_mem (torrentRank toLowerCase) streams (-9999) with h0 | ⟨b, hb, hbs⟩
        · rw [h0]
          have := torrentRank_ge toLowerCase a
          omega
        · rw [← hbs]
          simpa using hall b hb
      rw [hall, decide_eq_false hmax]
  refine ⟨c, hc, hfirst, ?_⟩
  intro hnone
  obtain ⟨a, rest, rfl⟩ := List.exists_cons_of_ne_nil hne
  have hrank : ∀ s ∈ a :: rest, torrentRank toLowerCase s = -1 := by
    intro s hs
    rw [torrentRank_eq, hnone s hs]
  have hpa : (a :: rest).all
      (fun t => decide (torrentRank toLowerCase t ≤ torrentRank toLowerCase a)) = true := by
    rw [List.all_eq_true]
    intro t ht
    rw [hrank t ht, hrank a (List.mem_cons_self _ _)]
    simp
  rw [List.find?_cons, hpa] at hfirst
  simpa using hfirst

/-- C11 at concrete arrays: of the two candidates with 1080p the earlier one
is returned, and of three candidates without token the first one. -/
theorem pickBestTorrentStream_first_wins_witness :
    (sampleTorrents ≠ [] ∧
      pickBestTorrentStream asciiLower sampleTorrents = sampleTorrents.get? 2) ∧
    (untaggedTorrents ≠ [] ∧
      ∃ c, pickBestTorrentStream asciiLower untaggedTorrents = some c ∧
        untaggedTorrents.head? = some c) :=
  ⟨⟨by decide, by decide⟩,
   ⟨by decide,
    (pickBestTorrentStream_first_wins asciiLower untaggedTorrents (by decide)).elim
      fun c h => ⟨c, h.1, h.2.2 (by decide)⟩⟩⟩

/-! ## The store: a non-positive TTL (C15) -/

/-- What a read returns after an add, in a reachable store, as long as the
token is neither added nor removed again: the record until the delay of the
timer has elapsed, and null from then on. -/
theorem getTemporaryRecord_after_add {ρ : Type} (pre post : List (Event ρ)) (token : String)
    (record : ρ) (ttlMs : Int) (hpost : untouched token post = true) :
    getTemporaryRecord (run (pre ++ Event.add token record ttlMs :: post)) token
      = if elapsedOf post < timerDelay ttlMs then some record else none := by
  rw [(Inv.run _).getTemporaryRecord_eq token]
  have hrev : (pre ++ Event.add token record ttlMs :: post).reverse
      = post.reverse ++ (Event.add token record ttlMs :: pre.reverse) := by
    simp [List.reverse_append, List.reverse_cons, List.append_assoc]
  rw [hrev, lastAddRev_untouched token post _ hpost]
  simp only [lastAddRev, if_true, Option.map_some', Nat.zero_add, true_and]

/-- C15, as stated, fails: after `addTemporaryRecord` with `ttlMs = 0`, and
likewise with `ttlMs = -1000`, the read that follows returns the record, not
null. The add is not rejected, and the timer it schedules cannot run before
the current call stack has returned. -/
theorem nonPositiveTtl_counterexample :
    (0 : Int) ≤ 0 ∧ (-1000 : Int) ≤ 0 ∧
      getTemporaryRecord (addTemporaryRecord Store.empty "abc123" "movie" 0) "abc123"
        = some "movie" ∧
      getTemporaryRecord (addTemporaryRecord Store.empty "abc123" "movie" (-1000)) "abc123"
        = some "movie" := by
  decide

/-- C15 (amended): for every token, record and `ttlMs ≤ 0`, in any reachable
store, the record is stored with a timer of 1 ms: as long as the token is
neither added nor removed again, a read returns the record while less than
1 ms has elapsed since the add (in particular right after it) and null once
1 ms has elapsed. -/
theorem nonPositiveTtl_expires_after_one_ms {ρ : Type} (pre post : List (Event ρ))
    (token : String) (record : ρ) (ttlMs : Int) (httl : ttlMs ≤ 0)
    (hpost : untouched token post = true) :
    getTemporaryRecord (run (pre ++ Event.add token record ttlMs :: post)) token
      = if elapsedOf post < 1 then some record else none := by
  rw [getTemporaryRecord_after_add pre post token record ttlMs hpost]
  have : timerDelay ttlMs = 1 := by
    unfold timerDelay
    rw [if_neg]
    intro h
    omega
  rw [this]

/-- C15 (amended) at concrete histories: with `ttlMs = 0` the record is still
read after an event-loop turn in which no time passes, and is gone 1 ms later. -/
theorem nonPositiveTtl_expires_after_one_ms_witness :
    (0 : Int) ≤ 0 ∧
      getTemporaryRecord (run ([] ++ Event.add "abc123" "movie" 0 :: [Event.tick 0])) "abc123"
        = some "movie" ∧
      getTemporaryRecord (run ([] ++ Event.add "abc123" "movie" 0 :: [Event.tick 0, Event.tick 1]))
        "abc123" = none :=
  ⟨by decide,
   (nonPositiveTtl_expires_after_one_ms [] [Event.tick 0] "abc123" "movie" 0 (by decide)
      (by decide)).trans (by decide),
   (nonPositiveTtl_expires_after_one_ms [] [Event.tick 0, Event.tick 1] "abc123" "movie" 0
      (by decide) (by decide)).trans (by decide)⟩

/-! ## The store: timers and entries stay paired (C16) -/

theorem nodup_ids_filter (l : List Timer) (p : Timer → Bool) (h : (l.map Timer.id).Nodup) :
    ((l.filter p).map Timer.id).Nodup :=
  h.sublist ((List.filter_sublist l).map _)

theorem nodup_ids_append_fresh (l : List Timer) (new : Timer) (h : (l.map Timer.id).Nodup)
    (hfresh : ∀ t ∈ l, t.id < new.id) : ((l ++ [new]).map Timer.id).Nodup := by
  rw [List.map_append, List.nodup_append]
  refine ⟨h, by simp, ?_⟩
  intro a ha hb
  obtain ⟨t, ht, rfl⟩ := List.mem_map.mp ha
  simp only [List.map_cons, List.map_nil, List.mem_singleton] at hb
  have := hfresh t ht
  omega

theorem add_timers_of_some {ρ : Type} (s : Store ρ) (tok : String) (d : ρ) (ttl : Int)
    (e : Entry ρ) (h : mapGet s.sessions tok = some e) :
    (addTemporaryRecord s tok d ttl).timers
      = s.timers.filter (fun t => decide (t.id ≠ e.timeoutId))
        ++ [{ id := s.nextId, due := s.now + timerDelay ttl, token := tok }] := by
  simp [addTemporaryRecord, h, setTimeout, clearTimeout]

theorem add_timers_of_none {ρ : Type} (s : Store ρ) (tok : String) (d : ρ) (ttl : Int)
    (h : mapGet s.sessions tok = none) :
    (addTemporaryRecord s tok d ttl).timers
      = s.timers ++ [{ id := s.nextId, due := s.now + timerDelay ttl, token := tok }] := by
  simp [addTemporaryRecord, h, setTimeout]

theorem remove_timers_of_some {ρ : Type} (s : Store ρ) (tok : String)
    (e : Entry ρ) (h : mapGet s.sessions tok = some e) :
    (removeTemporaryRecord s tok).timers
      = s.timers.filter (fun t => decide (t.id ≠ e.timeoutId)) := by
  simp [removeTemporaryRecord, h, clearTimeout]

theorem remove_timers_of_none {ρ : Type} (s : Store ρ) (tok : String)
    (h : mapGet s.sessions tok = none) :
    (removeTemporaryRecord s tok).timers = s.timers := by
  simp [removeTemporaryRecord, h]

theorem Paired.same_timer {ρ : Type} {s : Store ρ} (h : Paired s) {t u : Timer}
    (ht : t ∈ s.timers) (hu : u ∈ s.timers) (hid : t.id = u.id) : t = u :=
  List.inj_on_of_nodup_map h.nodupIds ht hu hid

/-- In a paired store a timer with the identity recorded for `tok` captures `tok`. -/
theorem Paired.token_of_id {ρ : Type} {s : Store ρ} (h : Paired s) {u : Timer}
    (hu : u ∈ s.timers) {tok : String} {e : Entry ρ}
    (he : mapGet s.sessions tok = some e) (hid : u.id = e.timeoutId) : u.token = tok := by
  obtain ⟨t, ht, htid, httok⟩ := h.entryTimer tok e he
  rw [h.same_timer hu ht (hid.trans htid.symm)]
  exact httok

/-- In a paired store a timer that captures `tok` has the identity recorded for `tok`. -/
theorem Paired.id_of_token {ρ : Type} {s : Store ρ} (h : Paired s) {u : Timer}
    (hu : u ∈ s.timers) {e : Entry ρ} (he : mapGet s.sessions u.token = some e) :
    u.id = e.timeoutId := by
  obtain ⟨e', h1, h2⟩ := h.timerEntry u hu
  rw [he] at h1
  cases h1
  exact h2.symm

theorem Paired.at_load {ρ : Type} : Paired (Store.empty : Store ρ) := by
  constructor <;> simp [Store.empty, mapGet]

theorem Paired.after_add {ρ : Type} {s : Store ρ} (h : Paired s) (tok : String) (d : ρ)
    (ttl : Int) : Paired (addTemporaryRecord s tok d ttl) := by
  constructor
  · cases hg : mapGet s.sessions tok with
    | none =>
      rw [add_timers_of_none s tok d ttl hg]
      exact nodup_ids_append_fresh _ _ h.nodupIds (fun t ht => h.idBelow t ht)
    | some e =>
      rw [add_timers_of_some s tok d ttl e hg]
      apply nodup_ids_append_fresh _ _ (nodup_ids_filter _ _ h.nodupIds)
      intro t ht
      exact h.idBelow t (List.mem_filter.mp ht).1
  · intro t ht
    rw [add_nextId]
    rcases (mem_add_timers _ _ _ _ _).mp ht with ⟨h1, _⟩ | rfl
    · exact Nat.lt_succ_of_lt (h.idBelow t h1)
    · exact Nat.lt_succ_self _
  · intro t ht
    rw [add_sessions]
    rcases (mem_add_timers _ _ _ _ _).mp ht with ⟨h1, h2⟩ | rfl
    · obtain ⟨e, g1, g2⟩ := h.timerEntry t h1
      have hne : t.token ≠ tok := by
        intro htok
        rw [htok] at g1
        exact h2 e g1 g2.symm
      exact ⟨e, by rw [mapGet_mapSet, if_neg (Ne.symm hne)]; exact g1, g2⟩
    · exact ⟨{ record := d, timeoutId := s.nextId }, by simp [mapGet_mapSet], rfl⟩
  · intro tok' e he
    rw [add_sessions, mapGet_mapSet] at he
    by_cases hk : tok = tok'
    · subst hk
      rw [if_pos rfl] at he
      cases he
      exact ⟨_, (mem_add_timers _ _ _ _ _).mpr (Or.inr rfl), rfl, rfl⟩
    · rw [if_neg hk] at he
      obtain ⟨t, ht, htid, httok⟩ := h.entryTimer tok' e he
      refine ⟨t, (mem_add_timers _ _ _ _ _).mpr (Or.inl ⟨ht, ?_⟩), htid, httok⟩
      intro e0 he0 hid
      exact hk ((h.token_of_id ht he0 hid).symm.trans httok)

theorem Paired.after_remove {ρ : Type} {s : Store ρ} (h : Paired s) (tok : String) :
    Paired (removeTemporaryRecord s tok) := by
  constructor
  · cases hg : mapGet s.sessions tok with
    | none => rw [remove_timers_of_none s tok hg]; exact h.nodupIds
    | some e =>
      rw [remove_timers_of_some s tok e hg]
      exact nodup_ids_filter _ _ h.nodupIds
  · intro t ht
    rw [remove_nextId]
    exact h.idBelow t ((mem_remove_timers _ _ _).mp ht).1
  · intro t ht
    rw [mapGet_remove]
    obtain ⟨h1, h2⟩ := (mem_remove_timers _ _ _).mp ht
    obtain ⟨e, g1, g2⟩ := h.timerEntry t h1
    have hne : t.token ≠ tok := by
      intro htok
      rw [htok] at g1
      exact h2 e g1 g2.symm
    exact ⟨e, by rw [if_neg (Ne.symm hne)]; exact g1, g2⟩
  · intro tok' e he
    rw [mapGet_remove] at he
    by_cases hk : tok = tok'
    · rw [if_pos hk] at he
      cases he
    · rw [if_neg hk] at he
      obtain ⟨t, ht, htid, httok⟩ := h.entryTimer tok' e he
      refine ⟨t, (mem_remove_timers _ _ _).mpr ⟨ht, ?_⟩, htid, httok⟩
      intro e0 he0 hid
      exact hk ((h.token_of_id ht he0 hid).symm.trans httok)

theorem Paired.after_fire {ρ : Type} {s : Store ρ} (h : Paired s) (t : Timer)
    (ht : t ∈ s.timers) : Paired (fireTimer s t) := by
  constructor
  · exact nodup_ids_filter _ _ h.nodupIds
  · intro u hu
    exact h.idBelow u (List.mem_filter.mp hu).1
  · intro u hu
    obtain ⟨hu1, hu2⟩ := List.mem_filter.mp hu
    simp only [ne_eq, decide_eq_true_eq] at hu2
    obtain ⟨e, g1, g2⟩ := h.timerEntry u hu1
    have hne : t.token ≠ u.token := by
      intro htok
      have := h.id_of_token ht (by rw [htok]; exact g1)
      exact hu2 (g2.symm.trans this.symm)
    refine ⟨e, ?_, g2⟩
    simp only [fireTimer, mapGet_mapDelete, if_neg hne]
    exact g1
  · intro tok e he
    simp only [fireTimer, mapGet_mapDelete] at he
    by_cases hk : t.token = tok
    · rw [if_pos hk] at he
      cases he
    · rw [if_neg hk] at he
      obtain ⟨u, hu, huid, hutok⟩ := h.entryTimer tok e he
      refine ⟨u, ?_, huid, hutok⟩
      simp only [fireTimer, List.mem_filter, ne_eq, decide_eq_true_eq]
      refine ⟨hu, fun hid => ?_⟩
      have := h.same_timer hu ht hid
      exact hk (by rw [← this]; exact hutok)

theorem Paired.of_reachable {ρ : Type} {s : Store ρ} (h : Reachable s) : Paired s := by
  induction h with
  | empty => exact Paired.at_load
  | add s tok d ttl _ ih => exact ih.after_add tok d ttl
  | remove s tok _ ih => exact ih.after_remove tok
  | advance s ms _ ih => exact ⟨ih.nodupIds, ih.idBelow, ih.timerEntry, ih.entryTimer⟩
  | fire s t _ ht _ ih => exact ih.after_fire t ht

/-- In a paired store a token has one pending timer when it is stored and none
when it is not. -/
theorem Paired.count_timers {ρ : Type} {s : Store ρ} (h : Paired s) (tok : String) :
    (s.timers.filter (fun t => decide (t.token = tok))).length
      = if mapHas s.sessions tok then 1 else 0 := by
  cases hg : mapGet s.sessions tok with
  | none =>
    have hnil : s.timers.filter (fun t => decide (t.token = tok)) = [] := by
      rw [List.filter_eq_nil_iff]
      intro t ht
      simp only [decide_eq_true_eq]
      intro htok
      obtain ⟨e, g1, _⟩ := h.timerEntry t ht
      rw [htok, hg] at g1
      cases g1
    simp [hnil, mapHas, hg]
  | some e =>
    have hnd := nodup_ids_filter s.timers (fun t => decide (t.token = tok)) h.nodupIds
    have hall : ∀ u ∈ s.timers.filter (fun t => decide (t.token = tok)), u.id = e.timeoutId := by
      intro u hu
      obtain ⟨hu1, hu2⟩ := List.mem_filter.mp hu
      simp only [decide_eq_true_eq] at hu2
      exact h.id_of_token hu1 (by rw [hu2]; exact hg)
    obtain ⟨t, ht, htid, httok⟩ := h.entryTimer tok e hg
    have hmem : t ∈ s.timers.filter (fun t => decide (t.token = tok)) :=
      List.mem_filter.mpr ⟨ht, by simpa using httok⟩
    cases hF : s.timers.filter (fun t => decide (t.token = tok)) with
    | nil => rw [hF] at hmem; cases hmem
    | cons a rest =>
      rw [hF] at hnd hall
      cases rest with
      | nil => simp [mapHas, hg]
      | cons b rest' =>
        exfalso
        have ha := hall a (List.mem_cons_self _ _)
        have hb := hall b (List.mem_cons_of_mem _ (List.mem_cons_self _ _))
        simp only [List.map_cons, List.nodup_cons, List.mem_cons, not_or] at hnd
        exact hnd.1.1 (ha.trans hb.symm)

/-- Running a list of distinct pending due timers one after the other stays
within the reachable stores. -/
theorem reachable_foldl_fireTimer {ρ : Type} (l : List Timer) (s : Store ρ)
    (hs : Reachable s) (hl : ∀ t ∈ l, t ∈ s.timers ∧ t.due ≤ s.now)
    (hnd : (l.map Timer.id).Nodup) : Reachable (l.foldl fireTimer s) := by
  induction l generalizing s with
  | nil => exact hs
  | cons t rest ih =>
    rw [List.foldl_cons]
    simp only [List.map_cons, List.nodup_cons, List.mem_map, not_exists, not_and] at hnd
    apply ih _ (Reachable.fire s t hs (hl t (List.mem_cons_self _ _)).1
      (hl t (List.mem_cons_self _ _)).2)
    · intro u hu
      obtain ⟨hu1, hu2⟩ := hl u (List.mem_cons_of_mem _ hu)
      refine ⟨?_, hu2⟩
      simp only [fireTimer, List.mem_filter, ne_eq, decide_eq_true_eq]
      exact ⟨hu1, fun hid => hnd.1 u hu hid⟩
    · exact hnd.2

theorem reachable_tick {ρ : Type} (s : Store ρ) (ms : Nat) (hs : Reachable s) :
    Reachable (tick s ms) := by
  unfold tick
  apply reachable_foldl_fireTimer _ _ (Reachable.advance s ms hs)
  · intro t ht
    exact (mem_dueTimers _ _ _).mp ht
  · have hperm : (dueTimers s.timers (s.now + ms)).Perm
        (s.timers.filter (fun t => decide (t.due ≤ s.now + ms))) :=
      List.perm_insertionSort _ _
    rw [(hperm.map Timer.id).nodup_iff]
    exact nodup_ids_filter _ _ (Paired.of_reachable hs).nodupIds

/-- Every store reached by a history, with all due timers running at each
`tick`, is among the reachable stores. -/
theorem reachable_run {ρ : Type} (tr : List (Event ρ)) : Reachable (run tr) := by
  have key : ∀ (l : List (Event ρ)) (s : Store ρ), Reachable s → Reachable (runFrom s l) := by
    intro l
    induction l with
    | nil => intro s hs; exact hs
    | cons e rest ih =>
      intro s hs
      rw [runFrom_cons]
      apply ih
      cases e with
      | add tok d ttl => exact Reachable.add s tok d ttl hs
      | get tok => exact hs
      | remove tok => exact Reachable.remove s tok hs
      | tick ms => exact reachable_tick s ms hs
  exact key tr Store.empty Reachable.empty

/-- C16: in every store reachable from module load by calls of
`addTemporaryRecord`, `removeTemporaryRecord`, `getTemporaryRecord`, the clock
moving on and single due timers running, each token has exactly one pending
timer if it is a key of `sessions` and none if it is not (timers never pile
up for a token and no stored record is without timer); the entry stored under
the token of a pending timer is the entry that records this very timer, and
the timer running changes the entry of no other token. -/
theorem timers_match_sessions {ρ : Type} (s : Store ρ) (h : Reachable s) :
    (∀ token, (s.timers.filter (fun t => decide (t.token = token))).length
        = if mapHas s.sessions token then 1 else 0) ∧
    (∀ token, (∃ t ∈ s.timers, t.token = token) ↔ mapHas s.sessions token = true) ∧
    (∀ t ∈ s.timers, ∃ entry, mapGet s.sessions t.token = some entry ∧
        entry.timeoutId = t.id ∧
        mapGet (fireTimer s t).sessions t.token = none ∧
        ∀ token, token ≠ t.token →
          mapGet (fireTimer s t).sessions token = mapGet s.sessions token) := by
  have hp := Paired.of_reachable h
  refine ⟨hp.count_timers, ?_, ?_⟩
  · intro token
    constructor
    · rintro ⟨t, ht, htok⟩
      obtain ⟨e, g1, _⟩ := hp.timerEntry t ht
      rw [htok] at g1
      simp [mapHas, g1]
    · intro hhas
      cases hg : mapGet s.sessions token with
      | none => simp [mapHas, hg] at hhas
      | some e =>
        obtain ⟨t, ht, _, httok⟩ := hp.entryTimer token e hg
        exact ⟨t, ht, httok⟩
  · intro t ht
    obtain ⟨e, g1, g2⟩ := hp.timerEntry t ht
    refine ⟨e, g1, g2, ?_, ?_⟩
    · simp [fireTimer, mapGet_mapDelete]
    · intro token hne
      simp [fireTimer, mapGet_mapDelete, Ne.symm hne]

/-- C16 at a concrete store: "abc123" added twice and "def456" once, then
"def456" removed; one timer is pending, for "abc123". -/
theorem timers_match_sessions_witness :
    Reachable (run [Event.add "abc123" "movie" 10800000, Event.tick 5,
        Event.add "abc123" "series" 10800000, Event.add "def456" "movie" 10800000,
        Event.remove "def456"]) ∧
      ((run [Event.add "abc123" "movie" 10800000, Event.tick 5,
        Event.add "abc123" "series" 10800000, Event.add "def456" "movie" 10800000,
        Event.remove "def456"]).timers.filter (fun t => decide (t.token = "abc123"))).length = 1 ∧
      (run [Event.add "abc123" "movie" 10800000, Event.tick 5,
        Event.add "abc123" "series" 10800000, Event.add "def456" "movie" 10800000,
        Event.remove "def456"]).timers.length = 1 :=
  ⟨reachable_run _,
   ((timers_match_sessions _ (reachable_run _)).1 "abc123").trans (by decide),
   by decide⟩

/-! ## backup.js: `pickBestTorrentStream` on JS values -/

theorem lowerText_field (toLowerCase : String → String) (v : JsVal)
    (h : v = .undefined ∨ v = .null ∨ ∃ t, v = .str t) :
    Js.lowerText toLowerCase v = .ok (v.text?.map toLowerCase) := by
  rcases h with rfl | rfl | ⟨t, rfl⟩ <;> rfl

theorem wellFormedCandidate_fields (s : JsVal) (h : wellFormedCandidate s = true) :
    ∃ fields, s = .obj fields ∧
      (s.field "title" = .undefined ∨ s.field "title" = .null ∨ ∃ t, s.field "title" = .str t) ∧
      (s.field "name" = .undefined ∨ s.field "name" = .null ∨ ∃ t, s.field "name" = .str t) := by
  cases s with
  | obj fields =>
    refine ⟨fields, rfl, ?_, ?_⟩
    · simp only [wellFormedCandidate, Bool.and_eq_true] at h
      have h1 := h.1
      simp only [JsVal.field]
      cases hm : mapGet fields "title" with
      | none => left; rfl
      | some v =>
        rw [hm] at h1
        cases v <;> simp_all
    · simp only [wellFormedCandidate, Bool.and_eq_true] at h
      have h2 := h.2
      simp only [JsVal.field]
      cases hm : mapGet fields "name" with
      | none => left; rfl
      | some v =>
        rw [hm] at h2
        cases v <;> simp_all
  | undefined => simp [wellFormedCandidate] at h
  | null => simp [wellFormedCandidate] at h
  | bool b => simp [wellFormedCandidate] at h
  | num n => simp [wellFormedCandidate] at h
  | str t => simp [wellFormedCandidate] at h
  | arr items => simp [wellFormedCandidate] at h

theorem getProp_eq_field_of_obj (fields : List (String × JsVal)) (k : String) :
    (JsVal.obj fields).getProp k = .ok ((JsVal.obj fields).field k) := by
  rw [getProp_obj]
  rfl

/-- On a well-formed candidate the test on the JS value throws nothing and is
the test on the candidate read as a `TorrentStream`. -/
theorem matchesRes_js_eq (toLowerCase : String → String) (s : JsVal) (res : String)
    (h : wellFormedCandidate s = true) :
    Js.matchesRes toLowerCase s res = .ok (matchesRes toLowerCase (toTorrent s) res) := by
  obtain ⟨fields, rfl, ht, hn⟩ := wellFormedCandidate_fields s h
  unfold Js.matchesRes matchesRes toTorrent
  simp only [getProp_eq_field_of_obj, lowerText_field toLowerCase _ ht,
    lowerText_field toLowerCase _ hn, bind, Except.bind]
  cases (JsVal.obj fields).field "title" |>.text? with
  | none =>
    cases (JsVal.obj fields).field "name" |>.text? with
    | none => simp
    | some n => simp
  | some t =>
    cases (JsVal.obj fields).field "name" |>.text? with
    | none =>
      by_cases hi : jsIncludes (toLowerCase t) res = true <;> simp [hi]
    | some n =>
      by_cases hi : jsIncludes (toLowerCase t) res = true <;> simp [hi]

theorem rankLoop_js_eq (toLowerCase : String → String) (s : JsVal)
    (h : wellFormedCandidate s = true) (l : List String) (i : Nat) :
    Js.rankLoop toLowerCase s l i = .ok (rankLoop toLowerCase (toTorrent s) l i) := by
  induction l generalizing i with
  | nil => rfl
  | cons res rest ih =>
    simp only [Js.rankLoop, rankLoop, matchesRes_js_eq toLowerCase s res h, bind, Except.bind]
    split
    · rfl
    · exact ih (i + 1)

theorem torrentLoop_js_eq (toLowerCase : String → String) (l : List JsVal)
    (h : ∀ s ∈ l, wellFormedCandidate s = true) (st : JsVal × Int) :
    Js.torrentLoop toLowerCase l st
      = .ok (l.foldl (keepBest id (fun s => torrentRank toLowerCase (toTorrent s))) st) := by
  induction l generalizing st with
  | nil => rfl
  | cons a rest ih =>
    have hrest : ∀ s ∈ rest, wellFormedCandidate s = true :=
      fun s hs => h s (List.mem_cons_of_mem _ hs)
    simp only [Js.torrentLoop, rankLoop_js_eq toLowerCase a (h a (List.mem_cons_self _ _)),
      bind, Except.bind, List.foldl_cons, keepBest, gt_iff_lt, torrentRank, id]
    split
    · exact ih hrest _
    · exact ih hrest _

theorem maxFrom_map {α β ι : Type} [LinearOrder ι] (f : α → β) (sc : β → ι) (l : List α) (m : ι) :
    maxFrom sc (l.map f) m = maxFrom (fun a => sc (f a)) l m := by
  induction l generalizing m with
  | nil => rfl
  | cons a rest ih => simp only [List.map_cons, maxFrom, ih]

/-- On a non-empty array of well-formed candidates the function on JS values
throws nothing and returns an element of the array, the one that
`pickBestTorrentStream` selects among the candidates read as `TorrentStream`. -/
theorem pickBestTorrentStream_js_eq (toLowerCase : String → String) (items : List JsVal)
    (hne : items ≠ []) (h : ∀ s ∈ items, wellFormedCandidate s = true) :
    ∃ c, Js.pickBestTorrentStream toLowerCase (.arr items) = .ok c ∧ c ∈ items ∧
      pickBestTorrentStream toLowerCase (items.map toTorrent) = some (toTorrent c) := by
  have hlen : items.length ≠ 0 := fun h0 => hne (List.length_eq_zero.mp h0)
  obtain ⟨a, rest, rfl⟩ := List.exists_cons_of_ne_nil hne
  have hlt : (-9999 : Int)
      < maxFrom (fun s => torrentRank toLowerCase (toTorrent s)) (a :: rest) (-9999) := by
    have h1 := le_maxFrom_of_mem (fun s => torrentRank toLowerCase (toTorrent s))
      (a :: rest) (-9999) a (List.mem_cons_self _ _)
    have h2 := torrentRank_ge toLowerCase (toTorrent a)
    simp only at h1
    omega
  obtain ⟨x, hx1, hx2⟩ := (foldl_keepBest id (fun s => torrentRank toLowerCase (toTorrent s))
    (a :: rest) JsVal.null (-9999)).2 hlt
  refine ⟨x, ?_, List.mem_of_find?_eq_some hx1, ?_⟩
  · simp only [Js.pickBestTorrentStream, if_neg hlen, torrentLoop_js_eq toLowerCase _ h, hx2,
      bind, Except.bind, id]
  · obtain ⟨c, hc, hfind⟩ := pickBestTorrentStream_first_max toLowerCase
      ((a :: rest).map toTorrent) (by simp)
    rw [hc]
    rw [maxFrom_map, List.find?_map] at hfind
    have : (fun a' => decide (torrentRank toLowerCase a' =
        maxFrom (fun s => torrentRank toLowerCase (toTorrent s)) (a :: rest) (-9999))) ∘ toTorrent
        = fun s => decide (torrentRank toLowerCase (toTorrent s) =
          maxFrom (fun s => torrentRank toLowerCase (toTorrent s)) (a :: rest) (-9999)) := rfl
    rw [this, hx1] at hfind
    simpa using hfind.symm

/-! ## backup.js: no external ID, no further call (C12) -/

theorem getImdbIdFromTmdb_of_response (h : Host) (type tmdbId : JsVal) (statusText : String)
    (data imdbId : JsVal)
    (hfetch : h.fetch (tmdbUrl h type tmdbId) = .response true statusText (.ok data))
    (hprop : data.getProp "imdb_id" = .ok imdbId) :
    getImdbIdFromTmdb h type tmdbId
      = ([tmdbUrl h type tmdbId], .ok (if imdbId.truthy then imdbId else .null)) := by
  unfold getImdbIdFromTmdb
  simp only [hfetch, hprop]
  cases imdbId.truthy <;> rfl

/-- C12: whatever the arguments of `getBackupHlsForMedia`, when the lookup of
the external ids is answered successfully with a payload whose `imdb_id` is
missing or falsy, the function returns `null`, throws nothing, and the URLs it
has fetched are the one of that lookup alone: neither the indexer nor the
conversion service is called. -/
theorem getBackupHlsForMedia_without_imdbId (h : Host)
    (type tmdbId title seasonNum episodeNum : JsVal) (statusText : String)
    (data imdbId : JsVal)
    (hfetch : h.fetch (tmdbUrl h type tmdbId) = .response true statusText (.ok data))
    (hprop : data.getProp "imdb_id" = .ok imdbId) (hfalsy : imdbId.truthy = false) :
    getBackupHlsForMedia h type tmdbId title seasonNum episodeNum
      = ([tmdbUrl h type tmdbId], .ok .null) := by
  unfold getBackupHlsForMedia
  rw [getImdbIdFromTmdb_of_response h type tmdbId statusText data imdbId hfetch hprop, hfalsy]
  have hnull : JsVal.null.truthy = false := rfl
  simp only [Traced.andThen, Traced.lift, Bool.false_eq_true, if_false, hnull, Bool.not_false,
    if_true, List.append_nil]

/-- C12 at a concrete world: the catalogue answers `imdb_id: null` for the
movie 603; the only URL fetched is the one of the lookup. -/
theorem getBackupHlsForMedia_without_imdbId_witness :
    getBackupHlsForMedia hostWithoutImdbId (.str "movie") (.num 603) (.str "The Matrix")
        .undefined .undefined
      = (["https://api.themoviedb.org/3/movie/603/external_ids?api_key=key"], .ok .null) :=
  getBackupHlsForMedia_without_imdbId hostWithoutImdbId (.str "movie") (.num 603)
    (.str "The Matrix") .undefined .undefined "OK"
    (.obj [("id", .num 603), ("imdb_id", .null)]) .null rfl rfl rfl

/-! ## backup.js: a conversion without manifest is an error (C13) -/

theorem truthy_of_getProp_arr (v : JsVal) (k : String) (items : List JsVal)
    (h : v.getProp k = .ok (.arr items)) : v.truthy = true := by
  cases v with
  | obj fields => rfl
  | arr l => rfl
  | undefined => simp [JsVal.getProp] at h
  | null => simp [JsVal.getProp] at h
  | bool b => simp [JsVal.getProp] at h
  | num n => simp [JsVal.getProp] at h
  | str t => simp [JsVal.getProp] at h

/-- The magnet link that the pipeline builds for a chosen candidate. -/
theorem magnet_reads_of_obj (fields : List (String × JsVal)) (k : String) :
    ∃ v, (JsVal.obj fields).getProp k = .ok v :=
  ⟨_, getProp_obj fields k⟩

/-- C13: let the lookup yield a truthy external id and the indexer a non-empty
array of candidates (objects whose `title` and `name` are strings or missing).
Then `getBackupHlsForMedia` calls the lookup, the indexer and the conversion
service, in this order and nothing else; when the conversion service answers
successfully with a payload whose `m3u8Link` is missing or falsy, the function
throws `Error("No m3u8Link in fetchHls response")`; when it answers
successfully with a truthy `m3u8Link`, the function returns
`{type: "hls", playlist: m3u8Link, captions: []}`; and whenever the function
returns a value at all, the conversion service has answered successfully with
a truthy `m3u8Link` and the value is that object, so `null` is never returned. -/
theorem getBackupHlsForMedia_conversion (h : Host)
    (type tmdbId title seasonNum episodeNum : JsVal) (st1 st2 : String)
    (data1 imdbId data2 : JsVal) (items : List JsVal)
    (hfetch1 : h.fetch (tmdbUrl h type tmdbId) = .response true st1 (.ok data1))
    (hid : data1.getProp "imdb_id" = .ok imdbId) (hidt : imdbId.truthy = true)
    (hfetch2 : h.fetch (buildTorrentioUrl h type imdbId seasonNum episodeNum)
      = .response true st2 (.ok data2))
    (hstreams : data2.getProp "streams" = .ok (.arr items))
    (hne : items ≠ []) (hwf : ∀ s ∈ items, wellFormedCandidate s = true) :
    ∃ url,
      (getBackupHlsForMedia h type tmdbId title seasonNum episodeNum).1
        = [tmdbUrl h type tmdbId, buildTorrentioUrl h type imdbId seasonNum episodeNum, url] ∧
      (∀ st3 payload v, h.fetch url = .response true st3 (.ok payload) →
        payload.getProp "m3u8Link" = .ok v → v.truthy = false →
        (getBackupHlsForMedia h type tmdbId title seasonNum episodeNum).2
          = .error (.error "No m3u8Link in fetchHls response")) ∧
      (∀ st3 payload m3u8Link, h.fetch url = .response true st3 (.ok payload) →
        payload.getProp "m3u8Link" = .ok m3u8Link → m3u8Link.truthy = true →
        (getBackupHlsForMedia h type tmdbId title seasonNum episodeNum).2
          = .ok (.obj [("type", .str "hls"), ("playlist", m3u8Link), ("captions", .arr [])])) ∧
      (∀ r, (getBackupHlsForMedia h type tmdbId title seasonNum episodeNum).2 = .ok r →
        ∃ st3 payload m3u8Link, h.fetch url = .response true st3 (.ok payload) ∧
          payload.getProp "m3u8Link" = .ok m3u8Link ∧ m3u8Link.truthy = true ∧
          r = .obj [("type", .str "hls"), ("playlist", m3u8Link), ("captions", .arr [])]) := by
  obtain ⟨best, hbest, hmem, _⟩ := pickBestTorrentStream_js_eq h.toLowerCase items hne hwf
  obtain ⟨fields, rfl, _, _⟩ := wellFormedCandidate_fields best (hwf best hmem)
  obtain ⟨infoHash, hih⟩ := magnet_reads_of_obj fields "infoHash"
  obtain ⟨name, hname⟩ := magnet_reads_of_obj fields "name"
  obtain ⟨ttl, httl⟩ := magnet_reads_of_obj fields "title"
  have hd2 : data2.truthy = true := truthy_of_getProp_arr data2 "streams" items hstreams
  have himdb := getImdbIdFromTmdb_of_response h type tmdbId st1 data1 imdbId hfetch1 hid
  rw [if_pos hidt] at himdb
  have htor : fetchTorrentioStreams h type imdbId seasonNum episodeNum
      = ([buildTorrentioUrl h type imdbId seasonNum episodeNum], .ok data2) := by
    unfold fetchTorrentioStreams
    simp only [hfetch2]
    rfl
  have hdn : ∃ dn, (if name.truthy then Except.ok name else (JsVal.obj fields).getProp "title")
      = (.ok dn : Except JsError JsVal) := by
    by_cases hn : name.truthy = true
    · exact ⟨name, by rw [if_pos hn]⟩
    · exact ⟨ttl, by rw [if_neg hn, httl]⟩
  obtain ⟨dn, hdn⟩ := hdn
  have hshape : getBackupHlsForMedia h type tmdbId title seasonNum episodeNum
      = ([tmdbUrl h type tmdbId, buildTorrentioUrl h type imdbId seasonNum episodeNum,
          fetchHlsUrl h (buildMagnetLink h infoHash dn)],
         match (fetchM3u8FromMagnet h (buildMagnetLink h infoHash dn)).2 with
         | .error e => .error e
         | .ok m3u8Link =>
             .ok (.obj [("type", .str "hls"), ("playlist", m3u8Link), ("captions", .arr [])])) := by
    have harr : (JsVal.arr items).truthy = true := rfl
    have hobj : (JsVal.obj fields).truthy = true := rfl
    unfold getBackupHlsForMedia
    rw [himdb]
    simp only [Traced.andThen, Traced.lift, hidt, htor, hd2, hstreams, hbest, hih, hname, hdn,
      harr, hobj, Bool.not_true, Bool.false_eq_true, if_false, List.append_nil,
      List.singleton_append, List.nil_append]
    cases hres : (fetchM3u8FromMagnet h (buildMagnetLink h infoHash dn)).2 with
    | error e => simp [fetchM3u8FromMagnet]
    | ok link => simp [fetchM3u8FromMagnet]
  refine ⟨fetchHlsUrl h (buildMagnetLink h infoHash dn), ?_, ?_, ?_, ?_⟩
  · rw [hshape]
  · intro st3 payload v hf hp hv
    rw [hshape]
    simp [fetchM3u8FromMagnet, hf, hp, hv]
  · intro st3 payload v hf hp hv
    rw [hshape]
    simp [fetchM3u8FromMagnet, hf, hp, hv]
  · intro r hr
    rw [hshape] at hr
    simp only [fetchM3u8FromMagnet] at hr
    cases hf : h.fetch (fetchHlsUrl h (buildMagnetLink h infoHash dn)) with
    | rejected msg => rw [hf] at hr; simp at hr
    | response ok st3 json =>
      rw [hf] at hr
      cases ok with
      | false => simp at hr
      | true =>
        cases json with
        | error msg => simp at hr
        | ok payload =>
          cases hp : payload.getProp "m3u8Link" with
          | error e => simp [hp] at hr
          | ok link =>
            by_cases hl : link.truthy = true
            · refine ⟨st3, payload, link, rfl, hp, hl, ?_⟩
              simp [hp, hl] at hr
              exact hr.symm
            · simp [hp, hl] at hr

theorem hostWithoutManifest_fetch (url : String) :
    ∃ payload, hostWithoutManifest.fetch url = .response true "OK" (.ok payload) ∧
      payload.getProp "m3u8Link" = .ok .undefined := by
  unfold hostWithoutManifest
  simp only
  split
  · exact ⟨_, rfl, rfl⟩
  · split
    · exact ⟨_, rfl, rfl⟩
    · exact ⟨_, rfl, rfl⟩

/-- C13 at two concrete worlds. In the first the catalogue yields "tt0133093",
the indexer one candidate, and the conversion service answers `{}`: three
calls are made and the function throws. In the second every call is answered
with a manifest link among the fields: the function returns the stream object
with that link. -/
theorem getBackupHlsForMedia_conversion_witness :
    ((∃ url,
      (getBackupHlsForMedia hostWithoutManifest (.str "movie") (.num 603) (.str "The Matrix")
          .undefined .undefined).1
        = [tmdbUrl hostWithoutManifest (.str "movie") (.num 603),
           buildTorrentioUrl hostWithoutManifest (.str "movie") (.str "tt0133093")
             .undefined .undefined, url]) ∧
     (getBackupHlsForMedia hostWithoutManifest (.str "movie") (.num 603) (.str "The Matrix")
        .undefined .undefined).2
      = .error (.error "No m3u8Link in fetchHls response")) ∧
    (getBackupHlsForMedia hostWithManifest (.str "movie") (.num 603) (.str "The Matrix")
        .undefined .undefined).2
      = .ok (.obj [("type", .str "hls"), ("playlist", .str "https://cdn/matrix.m3u8"),
                   ("captions", .arr [])]) :=
  ⟨(getBackupHlsForMedia_conversion hostWithoutManifest (.str "movie") (.num 603)
      (.str "The Matrix") .undefined .undefined "OK" "OK"
      (.obj [("id", .num 603), ("imdb_id", .str "tt0133093")]) (.str "tt0133093")
      (.obj [("streams", .arr [
          .obj [("name", .str "Torrentio 1080p"), ("title", .str "The.Matrix.1999"),
                ("infoHash", .str "abcdef")]])])
      [.obj [("name", .str "Torrentio 1080p"), ("title", .str "The.Matrix.1999"),
             ("infoHash", .str "abcdef")]]
      rfl rfl rfl rfl rfl (by simp) (by simp [wellFormedCandidate, mapGet])).elim
    fun url hu =>
      ⟨⟨url, hu.1⟩,
       (hostWithoutManifest_fetch url).elim fun payload hp =>
         hu.2.1 "OK" payload .undefined hp.1 hp.2 rfl⟩,
   (getBackupHlsForMedia_conversion hostWithManifest (.str "movie") (.num 603)
      (.str "The Matrix") .undefined .undefined "OK" "OK"
      manifestAnswer (.str "tt0133093") manifestAnswer
      [.obj [("name", .str "Torrentio 1080p"), ("title", .str "The.Matrix.1999"),
             ("infoHash", .str "abcdef")]]
      rfl rfl rfl rfl rfl (by simp) (by simp [wellFormedCandidate, mapGet])).elim
    fun url hu =>
      hu.2.2.1 "OK" manifestAnswer (.str "https://cdn/matrix.m3u8") rfl rfl rfl⟩

/-! ## server.js: the link and the record behind it (C14) -/

theorem timerDelay_threeHours : timerDelay 10800000 = 10800000 := by decide

/-- C14: with the random token `t` and fragment `f` as inputs, for every title
and media fields, `createStreamLink` returns `{watchUrl, token}` with
`token = t` and `watchUrl = BASE_URL + "/" + f + "-" + slug + "?token=" + t`,
and `createBackupLink` the same with "backup-" before `f`; both store the
record of the given fields (with `isBackup: true` for the backup link) under
`t` by `addTemporaryRecord` with a TTL of 10800000 ms, so that a read of `t`
right afterwards returns it; and in a reachable store, as long as `t` is
neither added nor removed again, the record is read while less than
10800000 ms have elapsed and null from then on. -/
theorem createLink_spec (baseUrl : String) (toLowerCase encodeURIComponent : String → String)
    (s : Store JsVal) (t f : String) (dateNow : Int) (type tmdbId : JsVal) (title : String)
    (seasonNum episodeNum : JsVal) :
    ((createStreamLink baseUrl toLowerCase encodeURIComponent s t f dateNow type tmdbId title
        seasonNum episodeNum).2
      = { watchUrl := baseUrl ++ "/" ++ f ++ "-" ++ slugOf toLowerCase encodeURIComponent title
            ++ "?token=" ++ t,
          token := t } ∧
     (createStreamLink baseUrl toLowerCase encodeURIComponent s t f dateNow type tmdbId title
        seasonNum episodeNum).1
      = addTemporaryRecord s t (streamRecord type tmdbId title seasonNum episodeNum dateNow)
          10800000 ∧
     getTemporaryRecord (createStreamLink baseUrl toLowerCase encodeURIComponent s t f dateNow
        type tmdbId title seasonNum episodeNum).1 t
      = some (streamRecord type tmdbId title seasonNum episodeNum dateNow)) ∧
    ((createBackupLink baseUrl toLowerCase encodeURIComponent s t f dateNow type tmdbId title
        seasonNum episodeNum).2
      = { watchUrl := baseUrl ++ "/backup-" ++ f ++ "-"
            ++ slugOf toLowerCase encodeURIComponent title ++ "?token=" ++ t,
          token := t } ∧
     (createBackupLink baseUrl toLowerCase encodeURIComponent s t f dateNow type tmdbId title
        seasonNum episodeNum).1
      = addTemporaryRecord s t (backupRecord type tmdbId title seasonNum episodeNum dateNow)
          10800000 ∧
     getTemporaryRecord (createBackupLink baseUrl toLowerCase encodeURIComponent s t f dateNow
        type tmdbId title seasonNum episodeNum).1 t
      = some (backupRecord type tmdbId title seasonNum episodeNum dateNow)) ∧
    (∀ pre post : List (Event JsVal), s = run pre → untouched t post = true →
      getTemporaryRecord (runFrom (createStreamLink baseUrl toLowerCase encodeURIComponent s t f
          dateNow type tmdbId title seasonNum episodeNum).1 post) t
        = (if elapsedOf post < 10800000
            then some (streamRecord type tmdbId title seasonNum episodeNum dateNow) else none) ∧
      getTemporaryRecord (runFrom (createBackupLink baseUrl toLowerCase encodeURIComponent s t f
          dateNow type tmdbId title seasonNum episodeNum).1 post) t
        = (if elapsedOf post < 10800000
            then some (backupRecord type tmdbId title seasonNum episodeNum dateNow) else none)) := by
  have hs : (createStreamLink baseUrl toLowerCase encodeURIComponent s t f dateNow type tmdbId
      title seasonNum episodeNum).1
      = addTemporaryRecord s t (streamRecord type tmdbId title seasonNum episodeNum dateNow)
          10800000 := rfl
  have hb : (createBackupLink baseUrl toLowerCase encodeURIComponent s t f dateNow type tmdbId
      title seasonNum episodeNum).1
      = addTemporaryRecord s t (backupRecord type tmdbId title seasonNum episodeNum dateNow)
          10800000 := rfl
  have hafter : ∀ (pre post : List (Event JsVal)) (record : JsVal), s = run pre →
      untouched t post = true →
      getTemporaryRecord (runFrom (addTemporaryRecord s t record 10800000) post) t
        = if elapsedOf post < 10800000 then some record else none := by
    intro pre post record hpre hpost
    have := getTemporaryRecord_after_add pre post t record 10800000 hpost
    rw [timerDelay_threeHours, run_append, runFrom_cons] at this
    rw [hpre]
    exact this
  refine ⟨⟨rfl, hs, ?_⟩, ⟨rfl, hb, ?_⟩, ?_⟩
  · rw [hs]
    simp [getTemporaryRecord, add_sessions, mapGet_mapSet]
  · rw [hb]
    simp [getTemporaryRecord, add_sessions, mapGet_mapSet]
  · intro pre post hpre hpost
    rw [hs, hb]
    exact ⟨hafter pre post _ hpre hpost, hafter pre post _ hpre hpost⟩

/-- C14 at a concrete call: the link for "The  Matrix" with token
"a1b2c3d4e5f6" and fragment "9f8e7d", and the record gone after exactly three
hours. -/
theorem createLink_spec_witness :
    (createStreamLink "https://savingshub.watch" asciiLower id Store.empty "a1b2c3d4e5f6" "9f8e7d"
        1700000000000 (.str "movie") (.str "603") "The  Matrix" .null .null).2
      = { watchUrl := "https://savingshub.watch/9f8e7d-the-matrix?token=a1b2c3d4e5f6",
          token := "a1b2c3d4e5f6" } ∧
    getTemporaryRecord (runFrom (createBackupLink "https://savingshub.watch" asciiLower id
        Store.empty "a1b2c3d4e5f6" "9f8e7d" 1700000000000 (.str "movie") (.str "603")
        "The  Matrix" .null .null).1 [Event.tick 10799999, Event.tick 1]) "a1b2c3d4e5f6"
      = none :=
  have h := createLink_spec "https://savingshub.watch" asciiLower id Store.empty "a1b2c3d4e5f6"
    "9f8e7d" 1700000000000 (.str "movie") (.str "603") "The  Matrix" .null .null
  ⟨h.1.1.trans (by decide),
   ((h.2.2 [] [Event.tick 10799999, Event.tick 1] rfl (by decide)).2).trans
     (by simp [elapsedOf])⟩

end Vini
